import Mathlib

/-!
Verification development for the clp-ffi-py repository: a codec and
incremental-buffering layer for CLP IR (a binary streaming format for log
data).  The Python layer under `clp_ffi_py/` (query builder, stream readers,
wildcard-query shaping, deprecated aliases) is embedded directly from its
source.  The native extension module `clp_ffi_py.ir.native` (the four-byte
serializer/deserializer, the key-value serializer/deserializer, `Query`,
`LogEvent`, `Metadata`) ships as compiled code whose sources are not part of
this tree; those operations are modelled from the repository's specification
(`spec.md`) and are pinned by the concrete behaviors asserted in the
repository's own test suite.

Conventions of the embedding:
- bytes are `Nat` values (encoders only emit values `< 256`);
- byte strings (UTF-8 text, messages) are `List Nat`;
- timestamps are `Int` (the int64 range is imposed by explicit hypotheses
  where it matters);
- fallible operations return `Except`/`Option`.
-/

namespace ClpFfiPy

/-! ### Little-endian fixed-width byte encoding

Modelled from the spec (§4.2): "a tag byte selects fixed-width
signed/unsigned representations (1/2/4/8-byte) chosen by magnitude to
minimize size".  The byte order within a fixed-width field is not fixed by
the spec; little-endian is chosen here.
-/

/-- `encodeLE w u` is the `w`-byte little-endian encoding of `u % 2^(8*w)`. -/
def encodeLE : Nat → Nat → List Nat
  | 0, _ => []
  | w + 1, u => (u % 256) :: encodeLE w (u / 256)

/-- `readLE w bs` consumes `w` bytes off the front of `bs` and returns the
little-endian value they denote together with the remaining bytes; `none`
when fewer than `w` bytes are available. -/
def readLE : Nat → List Nat → Option (Nat × List Nat)
  | 0, bs => some (0, bs)
  | _ + 1, [] => none
  | w + 1, b :: bs =>
    match readLE w bs with
    | none => none
    | some (u, rest) => some (b % 256 + 256 * u, rest)

theorem encodeLE_length (w u : Nat) : (encodeLE w u).length = w := by
  induction w generalizing u with
  | zero => rfl
  | succ k ih => simp [encodeLE, ih]

theorem readLE_encodeLE (w u : Nat) (rest : List Nat) (h : u < 2 ^ (8 * w)) :
    readLE w (encodeLE w u ++ rest) = some (u, rest) := by
  induction w generalizing u with
  | zero =>
    simp only [Nat.mul_zero, Nat.pow_zero, Nat.lt_one_iff] at h
    simp [encodeLE, readLE, h]
  | succ k ih =>
    have hdiv : u / 256 < 2 ^ (8 * k) := by
      have h8 : (8 : Nat) * (k + 1) = 8 * k + 8 := by ring
      rw [h8, Nat.pow_add] at h
      norm_num at h
      omega
    have hlist : encodeLE (k + 1) u ++ rest
        = (u % 256) :: (encodeLE k (u / 256) ++ rest) := by
      simp [encodeLE]
    rw [hlist, readLE, ih (u / 256) hdiv]
    simp only [Option.some.injEq, Prod.mk.injEq]
    exact ⟨by omega, trivial⟩

/-- Bytes consumed by a successful `readLE`: the remainder is a suffix whose
length is `w` less than the input's. -/
theorem readLE_length {w : Nat} {bs rest : List Nat} {u : Nat}
    (h : readLE w bs = some (u, rest)) : rest.length + w = bs.length := by
  induction w generalizing bs u with
  | zero =>
    simp only [readLE, Option.some_inj] at h
    cases h
    simp
  | succ k ih =>
    match bs with
    | [] => simp [readLE] at h
    | b :: bs' =>
      simp only [readLE] at h
      match hr : readLE k bs' with
      | none => rw [hr] at h; simp at h
      | some (u', rest') =>
        rw [hr] at h
        simp only [Option.some_inj] at h
        cases h
        have := ih hr
        simp only [List.length_cons]
        omega

/-! ### Two's-complement signed values inside a fixed-width field -/

/-- Unsigned representative of a signed value in a `w`-byte field
(two's complement). -/
def fromSigned (w : Nat) (v : Int) : Nat := (v % (2 ^ (8 * w) : Nat)).toNat

/-- Signed value denoted by the unsigned content of a `w`-byte field
(two's complement). -/
def toSigned (w : Nat) (u : Nat) : Int :=
  if u < 2 ^ (8 * w - 1) then (u : Int) else (u : Int) - (2 ^ (8 * w) : Nat)

theorem fromSigned_lt (w : Nat) (v : Int) : fromSigned w v < 2 ^ (8 * w) := by
  have hpos : (0 : Int) < (2 ^ (8 * w) : Nat) := by positivity
  have := Int.emod_lt_of_pos v hpos
  have hnn := Int.emod_nonneg v (ne_of_gt hpos)
  unfold fromSigned
  omega

theorem toSigned_fromSigned (w : Nat) (v : Int) (hw : 0 < w)
    (hlo : -(2 ^ (8 * w - 1) : Nat) ≤ v) (hhi : v < (2 ^ (8 * w - 1) : Nat)) :
    toSigned w (fromSigned w v) = v := by
  have hpos : (0 : Int) < (2 ^ (8 * w) : Nat) := by positivity
  have hnn := Int.emod_nonneg v (ne_of_gt hpos)
  have hsplit : (2 ^ (8 * w) : Nat) = 2 ^ (8 * w - 1) * 2 := by
    rw [← Nat.pow_succ]
    congr 1
    omega
  have hsplit' : ((2 ^ (8 * w) : Nat) : Int) = ((2 ^ (8 * w - 1) : Nat) : Int) * 2 := by
    exact_mod_cast hsplit
  have hcase : v % (2 ^ (8 * w) : Nat) = v ∨ v % (2 ^ (8 * w) : Nat) = v + (2 ^ (8 * w) : Nat) := by
    rcases le_or_lt 0 v with hv | hv
    · left
      exact Int.emod_eq_of_lt hv (by omega)
    · right
      have hself : (v + ((2 ^ (8 * w) : Nat) : Int)) % ((2 ^ (8 * w) : Nat) : Int)
          = v % ((2 ^ (8 * w) : Nat) : Int) := by
        conv_lhs =>
          rw [show v + ((2 ^ (8 * w) : Nat) : Int)
              = v + ((2 ^ (8 * w) : Nat) : Int) * 1 by ring]
        exact Int.add_mul_emod_self_left v ((2 ^ (8 * w) : Nat) : Int) 1
      have hlow : (0 : Int) ≤ v + ((2 ^ (8 * w) : Nat) : Int) := by omega
      have hhigh : v + ((2 ^ (8 * w) : Nat) : Int) < ((2 ^ (8 * w) : Nat) : Int) := by omega
      rw [← hself, Int.emod_eq_of_lt hlow hhigh]
  unfold toSigned fromSigned
  rcases hcase with hc | hc
  · rw [hc] at hnn ⊢
    have htn : ((v.toNat : Nat) : Int) = v := Int.toNat_of_nonneg hnn
    have hlt : v.toNat < 2 ^ (8 * w - 1) := by omega
    rw [if_pos hlt, htn]
  · rw [hc] at hnn ⊢
    have htn : (((v + ((2 ^ (8 * w) : Nat) : Int)).toNat : Nat) : Int)
        = v + ((2 ^ (8 * w) : Nat) : Int) := Int.toNat_of_nonneg hnn
    have hge : ¬ ((v + ((2 ^ (8 * w) : Nat) : Int)).toNat < 2 ^ (8 * w - 1)) := by omega
    rw [if_neg hge]
    omega

/-! ### Width selection

Modelled from the spec (§4.2): "encoder always picks the smallest tag that
fits; decoder must accept any tag (no strict minimality requirement on
decode)".
-/

/-- Smallest of the 1/2/4/8-byte unsigned widths that can hold `u`
(8 is used for everything at least `2^32`). -/
def chooseUnsignedWidth (u : Nat) : Nat :=
  if u < 2 ^ 8 then 1 else if u < 2 ^ 16 then 2 else if u < 2 ^ 32 then 4 else 8

/-- Smallest of the 1/2/4/8-byte signed (two's-complement) widths that can
hold `v` (8 is used for everything outside int32 range). -/
def chooseSignedWidth (v : Int) : Nat :=
  if -(2 ^ 7 : Nat) ≤ v ∧ v < (2 ^ 7 : Nat) then 1
  else if -(2 ^ 15 : Nat) ≤ v ∧ v < (2 ^ 15 : Nat) then 2
  else if -(2 ^ 31 : Nat) ≤ v ∧ v < (2 ^ 31 : Nat) then 4
  else 8

theorem chooseUnsignedWidth_pos (u : Nat) : 0 < chooseUnsignedWidth u := by
  unfold chooseUnsignedWidth
  split <;> [skip; split <;> [skip; split]] <;> norm_num

theorem chooseUnsignedWidth_fits (u : Nat) (h : u < 2 ^ 64) :
    u < 2 ^ (8 * chooseUnsignedWidth u) := by
  unfold chooseUnsignedWidth
  split <;> rename_i h1
  · norm_num; omega
  · split <;> rename_i h2
    · norm_num; omega
    · split <;> rename_i h3
      · norm_num; omega
      · norm_num; omega

theorem chooseSignedWidth_pos (v : Int) : 0 < chooseSignedWidth v := by
  unfold chooseSignedWidth
  split <;> [skip; split <;> [skip; split]] <;> norm_num

theorem chooseSignedWidth_fits (v : Int)
    (hlo : -(2 ^ 63 : Nat) ≤ v) (hhi : v < (2 ^ 63 : Nat)) :
    -(2 ^ (8 * chooseSignedWidth v - 1) : Nat) ≤ v
      ∧ v < (2 ^ (8 * chooseSignedWidth v - 1) : Nat) := by
  unfold chooseSignedWidth
  split <;> rename_i h1
  · norm_num at h1 ⊢; omega
  · split <;> rename_i h2
    · norm_num at h2 ⊢; omega
    · split <;> rename_i h3
      · norm_num at h3 ⊢; omega
      · norm_num at hlo hhi ⊢; omega

namespace ir

/-! ## The four-byte unstructured IR codec

The native classes `clp_ffi_py.ir.native.FourByteSerializer` and
`clp_ffi_py.ir.native.FourByteDeserializer` are compiled code whose sources
are not part of this tree.  Everything in this section is modelled from the
spec: §6 ("stream = `Preamble Event* EndMarker`", "EndMarker = single
reserved tag byte (`0x00` ...)", "All multi-byte integers are encoded via
the tag+fixed-width scheme in §4.2"), §4.2 (tag+width integer and
length-prefixed string encodings) and §4.3 (codec states and error
conditions).  The spec leaves the non-end-marker tag byte values open; the
model fixes distinct nonzero constants for them.  Per-event byte order
follows the tested invariant of §8: the encoded message precedes the
encoded timestamp delta.
-/

/-- Modelled from the spec: the reserved end-of-IR marker tag (`0x00`). -/
def cEndOfIR : Nat := 0x00

/-- Modelled from the spec: the preamble's leading format tag
(value unspecified there; a fixed nonzero byte here). -/
def cPreambleFormatTag : Nat := 0x01

/-- Modelled from the spec: tag byte announcing a length field of the given
width (values unspecified there; fixed distinct nonzero bytes here). -/
def lengthTag : Nat → Nat
  | 1 => 0x41
  | 2 => 0x42
  | 4 => 0x43
  | _ => 0x44

/-- Width of a length field announced by a tag byte; `none` on an
unrecognized tag. -/
def widthOfLengthTag : Nat → Option Nat
  | 0x41 => some 1
  | 0x42 => some 2
  | 0x43 => some 4
  | 0x44 => some 8
  | _ => none

/-- Modelled from the spec: tag byte announcing a signed timestamp field of
the given width (values unspecified there; fixed distinct nonzero bytes
here). -/
def timestampTag : Nat → Nat
  | 1 => 0x31
  | 2 => 0x32
  | 4 => 0x33
  | _ => 0x34

/-- Width of a signed timestamp field announced by a tag byte; `none` on an
unrecognized tag. -/
def widthOfTimestampTag : Nat → Option Nat
  | 0x31 => some 1
  | 0x32 => some 2
  | 0x33 => some 4
  | 0x34 => some 8
  | _ => none

theorem widthOfLengthTag_lengthTag (u : Nat) :
    widthOfLengthTag (lengthTag (chooseUnsignedWidth u)) = some (chooseUnsignedWidth u) := by
  unfold chooseUnsignedWidth
  split <;> [skip; split <;> [skip; split]] <;> rfl

theorem widthOfTimestampTag_timestampTag (v : Int) :
    widthOfTimestampTag (timestampTag (chooseSignedWidth v)) = some (chooseSignedWidth v) := by
  unfold chooseSignedWidth
  split <;> [skip; split <;> [skip; split]] <;> rfl

/-- Per-stream metadata record (spec §3): reference timestamp, timestamp
format string and timezone id, the latter two held as UTF-8 byte strings. -/
structure Metadata where
  ref_timestamp : Int
  timestamp_format : List Nat
  timezone_id : List Nat
  deriving DecidableEq, Repr

/-- One decoded unstructured log event (spec §3): message bytes, absolute
timestamp, zero-based index within the stream. -/
structure LogEvent where
  log_message : List Nat
  timestamp : Int
  index : Nat
  deriving DecidableEq, Repr

namespace FourByteSerializer

/-- Modelled from the spec (§4.2): length-prefixed string encoding — a tag
byte selecting the length-field width, the length, then the raw bytes. -/
def serialize_string (s : List Nat) : List Nat :=
  let w := chooseUnsignedWidth s.length
  lengthTag w :: (encodeLE w s.length ++ s)

/-- Modelled from the spec (§4.2, §4.3): signed tag+fixed-width encoding of
a timestamp value. -/
def serialize_timestamp (v : Int) : List Nat :=
  let w := chooseSignedWidth v
  timestampTag w :: encodeLE w (fromSigned w v)

/-- Modelled from the spec (§4.3, §6): `serialize_message` — the
length-prefixed message bytes. -/
def serialize_message (msg : List Nat) : List Nat :=
  serialize_string msg

/-- Modelled from the spec (§4.3, §6): `serialize_timestamp_delta` — the
tag+fixed-width signed delta. -/
def serialize_timestamp_delta (d : Int) : List Nat :=
  let w := chooseSignedWidth d
  timestampTag w :: encodeLE w (fromSigned w d)

/-- Modelled from the spec (§4.3): the combined
`serialize_message_and_timestamp_delta`, emitting the length-prefixed
message bytes followed by the tag+fixed-width delta in one call. -/
def serialize_message_and_timestamp_delta (d : Int) (msg : List Nat) : List Nat :=
  let wm := chooseUnsignedWidth msg.length
  let wd := chooseSignedWidth d
  lengthTag wm :: (encodeLE wm msg.length ++ msg
    ++ timestampTag wd :: encodeLE wd (fromSigned wd d))

/-- Modelled from the spec (§4.3, §6): `serialize_preamble` — format tag,
timestamp-format string, timezone-id string, reference timestamp. -/
def serialize_preamble (ref_timestamp : Int) (timestamp_format timezone : List Nat) : List Nat :=
  cPreambleFormatTag
    :: (serialize_string timestamp_format ++ serialize_string timezone
        ++ serialize_timestamp ref_timestamp)

/-- Modelled from the spec (§4.3, §6): `serialize_end_of_ir` — the single
reserved end-marker byte. -/
def serialize_end_of_ir : List Nat := [cEndOfIR]

end FourByteSerializer

/-- Error taxonomy of the unstructured codec (spec §7): `corrupt` for a
malformed tag ("CorruptStreamError"), `incomplete` for a stream that ends
mid-record ("IncompleteStreamError"). -/
inductive DeserErr where
  | incomplete
  | corrupt
  deriving DecidableEq, Repr

namespace FourByteDeserializer

/-- Modelled from the spec (§4.2): decode a length-prefixed string — tag
byte, length field, then that many raw bytes.  The decoder accepts any
recognized tag/width combination. -/
def parse_string : List Nat → Except DeserErr (List Nat × List Nat)
  | [] => .error .incomplete
  | t :: rest =>
    match widthOfLengthTag t with
    | none => .error .corrupt
    | some w =>
      match readLE w rest with
      | none => .error .incomplete
      | some (len, rest') =>
        if rest'.length < len then .error .incomplete
        else .ok (rest'.take len, rest'.drop len)

/-- Modelled from the spec (§4.2, §4.3): decode a tag+fixed-width signed
timestamp value. -/
def parse_timestamp : List Nat → Except DeserErr (Int × List Nat)
  | [] => .error .incomplete
  | t :: rest =>
    match widthOfTimestampTag t with
    | none => .error .corrupt
    | some w =>
      match readLE w rest with
      | none => .error .incomplete
      | some (u, rest') => .ok (toSigned w u, rest')

/-- Modelled from the spec (§4.3): decode one event record — the
length-prefixed message followed by the signed timestamp delta, mirroring
the serializer's byte order. -/
def parse_event (bs : List Nat) : Except DeserErr ((List Nat × Int) × List Nat) :=
  match parse_string bs with
  | .error e => .error e
  | .ok (msg, rest) =>
    match parse_timestamp rest with
    | .error e => .error e
    | .ok (d, rest') => .ok ((msg, d), rest')

theorem parse_string_length {bs : List Nat} {msg rest : List Nat}
    (h : parse_string bs = .ok (msg, rest)) : rest.length < bs.length := by
  match bs with
  | [] => simp [parse_string] at h
  | t :: bs' =>
    simp only [parse_string] at h
    match hw : widthOfLengthTag t with
    | none => simp [hw] at h
    | some w =>
      simp only [hw] at h
      match hr : readLE w bs' with
      | none => simp [hr] at h
      | some (len, rest') =>
        simp only [hr] at h
        have hlen := readLE_length hr
        by_cases hcmp : rest'.length < len
        · simp [if_pos hcmp] at h
        · rw [if_neg hcmp] at h
          simp only [Except.ok.injEq, Prod.mk.injEq] at h
          obtain ⟨h1, h2⟩ := h
          subst h2
          simp only [List.length_drop, List.length_cons]
          omega

theorem parse_timestamp_length {bs : List Nat} {d : Int} {rest : List Nat}
    (h : parse_timestamp bs = .ok (d, rest)) : rest.length < bs.length := by
  match bs with
  | [] => simp [parse_timestamp] at h
  | t :: bs' =>
    simp only [parse_timestamp] at h
    match hw : widthOfTimestampTag t with
    | none => simp [hw] at h
    | some w =>
      simp only [hw] at h
      match hr : readLE w bs' with
      | none => simp [hr] at h
      | some (u, rest') =>
        simp only [hr] at h
        simp only [Except.ok.injEq, Prod.mk.injEq] at h
        obtain ⟨h1, h2⟩ := h
        subst h2
        have := readLE_length hr
        simp only [List.length_cons]
        omega

theorem parse_event_length {bs : List Nat} {ev : List Nat × Int} {rest : List Nat}
    (h : parse_event bs = .ok (ev, rest)) : rest.length < bs.length := by
  unfold parse_event at h
  match hs : parse_string bs with
  | .error e => simp [hs] at h
  | .ok (msg, rest1) =>
    simp only [hs] at h
    match ht : parse_timestamp rest1 with
    | .error e => simp [ht] at h
    | .ok (d, rest2) =>
      simp only [ht] at h
      simp only [Except.ok.injEq, Prod.mk.injEq] at h
      obtain ⟨h1, h2⟩ := h
      subst h2
      have := parse_string_length hs
      have := parse_timestamp_length ht
      omega

/-- Modelled from the spec (§4.3, §7): the repeated
`deserialize_next_log_event` loop on the bytes following the preamble.  It
returns the log events whose records were fully received, in order, paired
with the terminal condition: `none` for a clean end (a decoded end-of-IR
marker, or truncation when `allow_incomplete_stream` is set) and
`some e` when the loop raises `e` (an `IncompleteStreamError` on
truncation by default, a `CorruptStreamError` on a malformed tag).
Each decoded event's timestamp accumulates the decoded delta onto the
previous timestamp, and its index is the next sequential index. -/
def deserialize_run (allow_incomplete_stream : Bool) (prev_ts : Int) (idx : Nat)
    (bs : List Nat) : List LogEvent × Option DeserErr :=
  if bs = [] then ([], if allow_incomplete_stream then none else some .incomplete)
  else if bs.head? = some cEndOfIR then ([], none)
  else
    match h : parse_event bs with
    | .error .corrupt => ([], some .corrupt)
    | .error .incomplete => ([], if allow_incomplete_stream then none else some .incomplete)
    | .ok ((msg, d), rest) =>
      let ts := prev_ts + d
      let result := deserialize_run allow_incomplete_stream ts (idx + 1) rest
      (⟨msg, ts, idx⟩ :: result.1, result.2)
  termination_by bs.length
  decreasing_by exact parse_event_length h

/-- Modelled from the spec (§4.3): `deserialize_preamble` — format tag (a
`CorruptStreamError` if unrecognized), then timestamp-format string,
timezone-id string and reference timestamp. -/
def deserialize_preamble (bs : List Nat) : Except DeserErr (Metadata × List Nat) :=
  match bs with
  | [] => .error .incomplete
  | t :: rest =>
    if t = cPreambleFormatTag then
      match parse_string rest with
      | .error e => .error e
      | .ok (fmt, r1) =>
        match parse_string r1 with
        | .error e => .error e
        | .ok (tz, r2) =>
          match parse_timestamp r2 with
          | .error e => .error e
          | .ok (ref, r3) => .ok (⟨ref, fmt, tz⟩, r3)
    else .error .corrupt

/-- The whole-stream deserialization drive (the loop of
`test_deserializer.py::_deserialize_log_stream` and
`readers.py::ClpIrStreamReader`): preamble first, then events until the
loop's terminal condition. -/
def deserialize_stream (allow_incomplete_stream : Bool) (bs : List Nat) :
    Except DeserErr (Metadata × (List LogEvent × Option DeserErr)) :=
  match deserialize_preamble bs with
  | .error e => .error e
  | .ok (md, rest) =>
    .ok (md, deserialize_run allow_incomplete_stream md.ref_timestamp 0 rest)

end FourByteDeserializer

/-- The serialization loop of the repository's test driver
(`test_deserializer.py::_serialize_log_stream`): each event is serialized
as a delta against the previous event's timestamp, seeded from the
reference timestamp.  Events are `(message bytes, absolute timestamp)`
pairs. -/
def serialize_events_from (ref : Int) : List (List Nat × Int) → List Nat
  | [] => []
  | (msg, ts) :: rest =>
    FourByteSerializer.serialize_message_and_timestamp_delta (ts - ref) msg
      ++ serialize_events_from ts rest

/-- Whole-stream serialization (`_serialize_log_stream`): preamble, the
delta-encoded events, then the end-of-IR marker. -/
def serialize_log_stream (md : Metadata) (events : List (List Nat × Int)) : List Nat :=
  FourByteSerializer.serialize_preamble md.ref_timestamp md.timestamp_format md.timezone_id
    ++ serialize_events_from md.ref_timestamp events
    ++ FourByteSerializer.serialize_end_of_ir

/-- Expected decoding of an event list: each `(message, timestamp)` pair
becomes a `LogEvent` with sequential indices from `idx`. -/
def enumerateFrom (idx : Nat) : List (List Nat × Int) → List LogEvent
  | [] => []
  | (msg, ts) :: rest => ⟨msg, ts, idx⟩ :: enumerateFrom (idx + 1) rest

/-- Timestamp of the last event, or `ref` for an empty list. -/
def lastTs (ref : Int) : List (List Nat × Int) → Int
  | [] => ref
  | (_, ts) :: rest => lastTs ts rest

/-- All consecutive timestamp deltas (seeded from `ref`) fit in the widest
(8-byte signed) field the four-byte encoding offers. -/
def boundedDeltas (ref : Int) : List (List Nat × Int) → Bool
  | [] => true
  | (_, ts) :: rest =>
    decide (-(2 ^ 63 : Nat) ≤ ts - ref) && decide (ts - ref < (2 ^ 63 : Nat))
      && boundedDeltas ts rest

/-! ### Round-trip lemmas for the four-byte codec -/

theorem serialize_combined_eq_append (d : Int) (msg : List Nat) :
    FourByteSerializer.serialize_message_and_timestamp_delta d msg
      = FourByteSerializer.serialize_message msg
        ++ FourByteSerializer.serialize_timestamp_delta d := by
  simp [FourByteSerializer.serialize_message_and_timestamp_delta,
    FourByteSerializer.serialize_message, FourByteSerializer.serialize_string,
    FourByteSerializer.serialize_timestamp_delta]

theorem parse_string_serialize (s rest : List Nat) (h : s.length < 2 ^ 64) :
    FourByteDeserializer.parse_string (FourByteSerializer.serialize_string s ++ rest)
      = .ok (s, rest) := by
  have hw := widthOfLengthTag_lengthTag s.length
  have hfit := chooseUnsignedWidth_fits s.length h
  have hlist : FourByteSerializer.serialize_string s ++ rest
      = lengthTag (chooseUnsignedWidth s.length)
        :: (encodeLE (chooseUnsignedWidth s.length) s.length ++ (s ++ rest)) := by
    simp [FourByteSerializer.serialize_string]
  rw [hlist]
  simp only [FourByteDeserializer.parse_string, hw, readLE_encodeLE _ _ _ hfit]
  rw [if_neg (by simp)]
  simp

theorem parse_timestamp_serialize (v : Int) (rest : List Nat)
    (hlo : -(2 ^ 63 : Nat) ≤ v) (hhi : v < (2 ^ 63 : Nat)) :
    FourByteDeserializer.parse_timestamp (FourByteSerializer.serialize_timestamp v ++ rest)
      = .ok (v, rest) := by
  have hw := widthOfTimestampTag_timestampTag v
  obtain ⟨h1, h2⟩ := chooseSignedWidth_fits v hlo hhi
  have hfit := fromSigned_lt (chooseSignedWidth v) v
  have hlist : FourByteSerializer.serialize_timestamp v ++ rest
      = timestampTag (chooseSignedWidth v)
        :: (encodeLE (chooseSignedWidth v) (fromSigned (chooseSignedWidth v) v) ++ rest) := by
    simp [FourByteSerializer.serialize_timestamp]
  rw [hlist]
  simp only [FourByteDeserializer.parse_timestamp, hw, readLE_encodeLE _ _ _ hfit]
  rw [toSigned_fromSigned _ _ (chooseSignedWidth_pos v) h1 h2]

theorem parse_event_serialize (d : Int) (msg rest : List Nat)
    (hm : msg.length < 2 ^ 64)
    (hlo : -(2 ^ 63 : Nat) ≤ d) (hhi : d < (2 ^ 63 : Nat)) :
    FourByteDeserializer.parse_event
        (FourByteSerializer.serialize_message_and_timestamp_delta d msg ++ rest)
      = .ok ((msg, d), rest) := by
  rw [serialize_combined_eq_append, List.append_assoc]
  unfold FourByteDeserializer.parse_event
  unfold FourByteSerializer.serialize_message
  have hdelta : FourByteSerializer.serialize_timestamp_delta d
      = FourByteSerializer.serialize_timestamp d := rfl
  rw [hdelta]
  simp only [parse_string_serialize _ _ hm, parse_timestamp_serialize d rest hlo hhi]

theorem deserialize_preamble_serialize (ref : Int) (fmt tz rest : List Nat)
    (hf : fmt.length < 2 ^ 64) (hz : tz.length < 2 ^ 64)
    (hlo : -(2 ^ 63 : Nat) ≤ ref) (hhi : ref < (2 ^ 63 : Nat)) :
    FourByteDeserializer.deserialize_preamble
        (FourByteSerializer.serialize_preamble ref fmt tz ++ rest)
      = .ok (⟨ref, fmt, tz⟩, rest) := by
  have hlist : FourByteSerializer.serialize_preamble ref fmt tz ++ rest
      = cPreambleFormatTag
        :: (FourByteSerializer.serialize_string fmt
            ++ (FourByteSerializer.serialize_string tz
                ++ (FourByteSerializer.serialize_timestamp ref ++ rest))) := by
    simp [FourByteSerializer.serialize_preamble]
  rw [hlist]
  simp only [FourByteDeserializer.deserialize_preamble, if_pos rfl,
    parse_string_serialize _ _ hf, parse_string_serialize _ _ hz,
    parse_timestamp_serialize _ _ hlo hhi]
  simp

theorem lengthTag_ne_cEndOfIR (w : Nat) : lengthTag w ≠ cEndOfIR := by
  unfold lengthTag cEndOfIR
  split <;> norm_num

theorem serialize_combined_cons (d : Int) (msg : List Nat) :
    FourByteSerializer.serialize_message_and_timestamp_delta d msg
      = lengthTag (chooseUnsignedWidth msg.length)
        :: (encodeLE (chooseUnsignedWidth msg.length) msg.length ++ msg
            ++ timestampTag (chooseSignedWidth d)
              :: encodeLE (chooseSignedWidth d) (fromSigned (chooseSignedWidth d) d)) := rfl

theorem deserialize_run_serialize_append (allow : Bool) (ref : Int) (idx : Nat)
    (events : List (List Nat × Int)) (tail : List Nat)
    (hmsg : ∀ p ∈ events, p.1.length < 2 ^ 64)
    (hd : boundedDeltas ref events = true) :
    FourByteDeserializer.deserialize_run allow ref idx
        (serialize_events_from ref events ++ tail)
      = (enumerateFrom idx events
           ++ (FourByteDeserializer.deserialize_run allow (lastTs ref events)
                 (idx + events.length) tail).1,
         (FourByteDeserializer.deserialize_run allow (lastTs ref events)
            (idx + events.length) tail).2) := by
  induction events generalizing ref idx with
  | nil => simp [serialize_events_from, enumerateFrom, lastTs]
  | cons p rest ih =>
    obtain ⟨msg, ts⟩ := p
    simp only [boundedDeltas, Bool.and_eq_true, decide_eq_true_eq] at hd
    obtain ⟨⟨hdlo, hdhi⟩, hdrest⟩ := hd
    have hm : msg.length < 2 ^ 64 := hmsg (msg, ts) (List.mem_cons_self _ _)
    have hmrest : ∀ p ∈ rest, p.1.length < 2 ^ 64 := fun p hp =>
      hmsg p (List.mem_cons_of_mem _ hp)
    have hbytes : serialize_events_from ref ((msg, ts) :: rest) ++ tail
        = FourByteSerializer.serialize_message_and_timestamp_delta (ts - ref) msg
            ++ (serialize_events_from ts rest ++ tail) := by
      simp [serialize_events_from]
    rw [hbytes]
    have hpe := parse_event_serialize (ts - ref) msg
      (serialize_events_from ts rest ++ tail) hm hdlo hdhi
    have hne : FourByteSerializer.serialize_message_and_timestamp_delta (ts - ref) msg
        ++ (serialize_events_from ts rest ++ tail) ≠ [] := by
      rw [serialize_combined_cons]
      simp
    have hhead : (FourByteSerializer.serialize_message_and_timestamp_delta (ts - ref) msg
        ++ (serialize_events_from ts rest ++ tail)).head? ≠ some cEndOfIR := by
      rw [serialize_combined_cons]
      simp [lengthTag_ne_cEndOfIR]
    rw [FourByteDeserializer.deserialize_run]
    rw [if_neg hne, if_neg hhead]
    split
    · rename_i heq
      rw [hpe] at heq
      simp at heq
    · rename_i heq
      rw [hpe] at heq
      simp at heq
    · rename_i msg' d' rest' heq
      rw [hpe] at heq
      simp only [Except.ok.injEq, Prod.mk.injEq] at heq
      obtain ⟨⟨hmsg', hd'⟩, hrest'⟩ := heq
      subst hmsg'
      subst hd'
      subst hrest'
      have hts : ref + (ts - ref) = ts := by ring
      rw [hts]
      simp only [enumerateFrom, lastTs, List.length_cons, List.cons_append]
      rw [ih ts (idx + 1) hmrest hdrest]
      have harith : idx + 1 + rest.length = idx + (rest.length + 1) := by omega
      rw [harith]

theorem deserialize_run_nil (allow : Bool) (prev : Int) (idx : Nat) :
    FourByteDeserializer.deserialize_run allow prev idx []
      = ([], if allow then none else some DeserErr.incomplete) := by
  rw [FourByteDeserializer.deserialize_run]
  simp

theorem deserialize_run_end_marker (allow : Bool) (prev : Int) (idx : Nat) (rest : List Nat) :
    FourByteDeserializer.deserialize_run allow prev idx (cEndOfIR :: rest) = ([], none) := by
  rw [FourByteDeserializer.deserialize_run]
  simp

theorem enumerateFrom_map_index (k : Nat) (events : List (List Nat × Int)) :
    (enumerateFrom k events).map LogEvent.index = List.range' k events.length := by
  induction events generalizing k with
  | nil => rfl
  | cons p rest ih =>
    obtain ⟨m, t⟩ := p
    simp [enumerateFrom, ih, List.range']

/-- On any byte stream, the run with incomplete-stream tolerance returns the
same event list as the default run. -/
theorem deserialize_run_events_agree (n : Nat) :
    ∀ bs : List Nat, bs.length ≤ n → ∀ (prev : Int) (idx : Nat),
      (FourByteDeserializer.deserialize_run true prev idx bs).1
        = (FourByteDeserializer.deserialize_run false prev idx bs).1 := by
  induction n with
  | zero =>
    intro bs hb prev idx
    have hbs : bs = [] := List.length_eq_zero.mp (Nat.le_zero.mp hb)
    subst hbs
    rw [deserialize_run_nil, deserialize_run_nil]
  | succ k ih =>
    intro bs hb prev idx
    rw [FourByteDeserializer.deserialize_run, FourByteDeserializer.deserialize_run]
    by_cases hnil : bs = []
    · simp [hnil]
    · rw [if_neg hnil, if_neg hnil]
      by_cases hend : bs.head? = some cEndOfIR
      · rw [if_pos hend, if_pos hend]
      · rw [if_neg hend, if_neg hend]
        split
        · rename_i heq
          simp [heq]
        · rename_i heq
          simp [heq]
        · rename_i msg d rest heq
          simp only [heq]
          have hlen : rest.length ≤ k := by
            have := FourByteDeserializer.parse_event_length heq
            omega
          show LogEvent.mk msg (prev + d) idx
              :: (FourByteDeserializer.deserialize_run true (prev + d) (idx + 1) rest).1
            = LogEvent.mk msg (prev + d) idx
              :: (FourByteDeserializer.deserialize_run false (prev + d) (idx + 1) rest).1
          rw [ih rest hlen (prev + d) (idx + 1)]

/-- On any byte stream, if the default run would raise
`IncompleteStreamError`, the tolerant run instead ends cleanly. -/
theorem deserialize_run_status_flip (n : Nat) :
    ∀ bs : List Nat, bs.length ≤ n → ∀ (prev : Int) (idx : Nat),
      (FourByteDeserializer.deserialize_run false prev idx bs).2 = some DeserErr.incomplete
        → (FourByteDeserializer.deserialize_run true prev idx bs).2 = none := by
  induction n with
  | zero =>
    intro bs hb prev idx h
    have hbs : bs = [] := List.length_eq_zero.mp (Nat.le_zero.mp hb)
    subst hbs
    rw [deserialize_run_nil]
    rfl
  | succ k ih =>
    intro bs hb prev idx h
    rw [FourByteDeserializer.deserialize_run] at h ⊢
    by_cases hnil : bs = []
    · simp [hnil]
    · rw [if_neg hnil] at h ⊢
      by_cases hend : bs.head? = some cEndOfIR
      · rw [if_pos hend] at h
        simp at h
      · rw [if_neg hend] at h ⊢
        split at h
        · rename_i heq
          simp at h
        · rename_i heq
          simp [heq]
        · rename_i msg d rest heq
          simp only [heq]
          have hlen : rest.length ≤ k := by
            have := FourByteDeserializer.parse_event_length heq
            omega
          show (FourByteDeserializer.deserialize_run true (prev + d) (idx + 1) rest).2 = none
          refine ih rest hlen (prev + d) (idx + 1) ?hstat
          exact h

/-- A stream truncated right before its end-of-IR marker: the preamble and
the serialized events, with the end marker never received. -/
def serialize_truncated_log_stream (md : Metadata) (events : List (List Nat × Int)) : List Nat :=
  FourByteSerializer.serialize_preamble md.ref_timestamp md.timestamp_format md.timezone_id
    ++ serialize_events_from md.ref_timestamp events

/-- C1: for every metadata record and every finite list of log events (each
a message with a timestamp), serializing the preamble, each event's
timestamp delta and message, and the end-of-IR marker with the four-byte
serializer, then deserializing the resulting stream with the four-byte
deserializer, yields the same metadata and log events with identical
message text, identical timestamps, and zero-based sequential indices
(index `i` for the `i`-th decoded event, starting at 0, increasing by 1). -/
theorem four_byte_round_trip (md : Metadata) (events : List (List Nat × Int))
    (hfmt : md.timestamp_format.length < 2 ^ 64)
    (htz : md.timezone_id.length < 2 ^ 64)
    (hreflo : -(2 ^ 63 : Nat) ≤ md.ref_timestamp)
    (hrefhi : md.ref_timestamp < (2 ^ 63 : Nat))
    (hmsg : ∀ p ∈ events, p.1.length < 2 ^ 64)
    (hd : boundedDeltas md.ref_timestamp events = true) :
    FourByteDeserializer.deserialize_stream false (serialize_log_stream md events)
        = .ok (md, (enumerateFrom 0 events, none))
      ∧ (enumerateFrom 0 events).map LogEvent.index = List.range events.length := by
  obtain ⟨ref, fmt, tz⟩ := md
  constructor
  · have hstream : serialize_log_stream ⟨ref, fmt, tz⟩ events
        = FourByteSerializer.serialize_preamble ref fmt tz
          ++ (serialize_events_from ref events ++ FourByteSerializer.serialize_end_of_ir) := by
      simp [serialize_log_stream]
    rw [hstream]
    simp only [FourByteDeserializer.deserialize_stream,
      deserialize_preamble_serialize ref fmt tz _ hfmt htz hreflo hrefhi]
    rw [deserialize_run_serialize_append false ref 0 events
      FourByteSerializer.serialize_end_of_ir hmsg hd]
    rw [show FourByteSerializer.serialize_end_of_ir = cEndOfIR :: [] from rfl]
    rw [deserialize_run_end_marker]
    simp
  · rw [enumerateFrom_map_index, List.range_eq_range']

/-- C1 witness: the round trip evaluated on a concrete two-event stream. -/
theorem four_byte_round_trip_witness :
    FourByteDeserializer.deserialize_stream false
        (serialize_log_stream ⟨5, [97], [98]⟩ [([104, 105], 10), ([], 3)])
        = .ok (⟨5, [97], [98]⟩, (enumerateFrom 0 [([104, 105], 10), ([], 3)], none))
      ∧ (enumerateFrom 0 [([104, 105], 10), ([], 3)]).map LogEvent.index = List.range 2 :=
  four_byte_round_trip ⟨5, [97], [98]⟩ [([104, 105], 10), ([], 3)]
    (by decide) (by decide) (by decide) (by decide) (by decide) (by decide)

/-- C3: deserializing a truncated unstructured IR stream with the default
`allow_incomplete_stream = False` raises `IncompleteStreamError` after
returning every log event whose record was fully received, while
`allow_incomplete_stream = True` instead ends cleanly (`None`) at the
truncation point, with the same events and no other exception:
(i) on any byte stream the tolerant run returns the same event list, and
flips a would-be `IncompleteStreamError` terminal status into a clean end;
(ii) for a stream truncated right before its end-of-IR marker, the default
run returns all events with the `IncompleteStreamError` status and the
tolerant run returns the same events with a clean end. -/
theorem incomplete_stream_handling :
    (∀ (prev : Int) (idx : Nat) (bs : List Nat),
        (FourByteDeserializer.deserialize_run true prev idx bs).1
          = (FourByteDeserializer.deserialize_run false prev idx bs).1
        ∧ ((FourByteDeserializer.deserialize_run false prev idx bs).2
              = some DeserErr.incomplete
            → (FourByteDeserializer.deserialize_run true prev idx bs).2 = none))
    ∧ (∀ (md : Metadata) (events : List (List Nat × Int)),
        md.timestamp_format.length < 2 ^ 64 → md.timezone_id.length < 2 ^ 64 →
        -(2 ^ 63 : Nat) ≤ md.ref_timestamp → md.ref_timestamp < (2 ^ 63 : Nat) →
        (∀ p ∈ events, p.1.length < 2 ^ 64) →
        boundedDeltas md.ref_timestamp events = true →
        FourByteDeserializer.deserialize_stream false
            (serialize_truncated_log_stream md events)
            = .ok (md, (enumerateFrom 0 events, some DeserErr.incomplete))
          ∧ FourByteDeserializer.deserialize_stream true
              (serialize_truncated_log_stream md events)
              = .ok (md, (enumerateFrom 0 events, none))) := by
  constructor
  · intro prev idx bs
    exact ⟨deserialize_run_events_agree bs.length bs le_rfl prev idx,
      deserialize_run_status_flip bs.length bs le_rfl prev idx⟩
  · intro md events hfmt htz hlo hhi hmsg hd
    obtain ⟨ref, fmt, tz⟩ := md
    have hstream : serialize_truncated_log_stream ⟨ref, fmt, tz⟩ events
        = FourByteSerializer.serialize_preamble ref fmt tz
          ++ (serialize_events_from ref events ++ []) := by
      simp [serialize_truncated_log_stream]
    constructor
    · rw [hstream]
      simp only [FourByteDeserializer.deserialize_stream,
        deserialize_preamble_serialize ref fmt tz _ hfmt htz hlo hhi]
      rw [deserialize_run_serialize_append false ref 0 events [] hmsg hd]
      rw [deserialize_run_nil]
      simp
    · rw [hstream]
      simp only [FourByteDeserializer.deserialize_stream,
        deserialize_preamble_serialize ref fmt tz _ hfmt htz hlo hhi]
      rw [deserialize_run_serialize_append true ref 0 events [] hmsg hd]
      rw [deserialize_run_nil]
      simp

/-- C3 witness: incomplete-stream handling evaluated on a concrete
truncated one-event stream. -/
theorem incomplete_stream_handling_witness :
    ((FourByteDeserializer.deserialize_run true 0 0 [7]).1
        = (FourByteDeserializer.deserialize_run false 0 0 [7]).1)
    ∧ (FourByteDeserializer.deserialize_stream false
          (serialize_truncated_log_stream ⟨5, [97], [98]⟩ [([104, 105], 10)])
        = .ok (⟨5, [97], [98]⟩,
            (enumerateFrom 0 [([104, 105], 10)], some DeserErr.incomplete)))
    ∧ (FourByteDeserializer.deserialize_stream true
          (serialize_truncated_log_stream ⟨5, [97], [98]⟩ [([104, 105], 10)])
        = .ok (⟨5, [97], [98]⟩, (enumerateFrom 0 [([104, 105], 10)], none))) :=
  ⟨(incomplete_stream_handling.1 0 0 [7]).1,
   (incomplete_stream_handling.2 ⟨5, [97], [98]⟩ [([104, 105], 10)]
      (by decide) (by decide) (by decide) (by decide) (by decide) (by decide)).1,
   (incomplete_stream_handling.2 ⟨5, [97], [98]⟩ [([104, 105], 10)]
      (by decide) (by decide) (by decide) (by decide) (by decide) (by decide)).2⟩

/-- C5: for every timestamp delta `d` in int32 range and every message `m`,
the combined serialization call is byte-identical to the concatenation of
the split calls: the serialized message followed by the serialized
timestamp delta. -/
theorem four_byte_encoding_composition (d : Int) (msg : List Nat)
    (hlo : -(2 ^ 31 : Nat) ≤ d) (hhi : d < (2 ^ 31 : Nat)) :
    FourByteSerializer.serialize_message_and_timestamp_delta d msg
      = FourByteSerializer.serialize_message msg
        ++ FourByteSerializer.serialize_timestamp_delta d :=
  serialize_combined_eq_append d msg

/-- C5 witness: the composition evaluated at the delta and a fragment of
the message used by `test_encoder.py::test_encoding_methods_consistency`. -/
theorem four_byte_encoding_composition_witness :
    FourByteSerializer.serialize_message_and_timestamp_delta (-3190) [84, 101]
      = FourByteSerializer.serialize_message [84, 101]
        ++ FourByteSerializer.serialize_timestamp_delta (-3190) :=
  four_byte_encoding_composition (-3190) [84, 101] (by decide) (by decide)

end ir

/-! ## Wildcard queries

`clp_ffi_py/wildcard_query.py`: a wildcard query is a pattern string plus a
case-sensitivity flag; `SubstringWildcardQuery` wraps the pattern with a
leading and a trailing `*`, `FullStringWildcardQuery` stores it unchanged.
Patterns are held as `List Char`.
-/

structure WildcardQuery where
  wildcard_query : List Char
  case_sensitive : Bool
  deriving DecidableEq, Repr

/-- `SubstringWildcardQuery.__init__`: adds both a prefix and a postfix
wildcard `*` to the input wildcard string. -/
def SubstringWildcardQuery (substring_wildcard_query : List Char)
    (case_sensitive : Bool) : WildcardQuery :=
  ⟨'*' :: (substring_wildcard_query ++ ['*']), case_sensitive⟩

/-- `FullStringWildcardQuery.__init__`: stores the input string unchanged. -/
def FullStringWildcardQuery (full_string_wildcard_query : List Char)
    (case_sensitive : Bool) : WildcardQuery :=
  ⟨full_string_wildcard_query, case_sensitive⟩

/-- Modelled from the spec (§4.2 wildcard canonicalization, pinned by
`test_query.py::test_init_wildcard_queries`): the left-to-right
canonicalization walk over a pattern.  `\` followed by `*`, `?` or `\`
keeps the escape; `\` followed by any other character drops the backslash
and keeps the character; a trailing lone `\` is dropped; runs of unescaped
`*` collapse to a single `*` (`in_star_run` records that the previous
character was an unescaped `*`). -/
def cleanUpWildcardSearchStringAux : Bool → List Char → List Char
  | _, [] => []
  | _, ['\\'] => []
  | _, '\\' :: c2 :: rest =>
    if c2 = '*' ∨ c2 = '?' ∨ c2 = '\\' then
      '\\' :: c2 :: cleanUpWildcardSearchStringAux false rest
    else c2 :: cleanUpWildcardSearchStringAux false rest
  | in_star_run, '*' :: rest =>
    if in_star_run then cleanUpWildcardSearchStringAux true rest
    else '*' :: cleanUpWildcardSearchStringAux true rest
  | _, c :: rest => c :: cleanUpWildcardSearchStringAux false rest

/-- Modelled from the spec (§4.2): the canonical pattern the native `Query`
stores for each wildcard query it is given. -/
def clean_up_wildcard_search_string (pattern : List Char) : List Char :=
  cleanUpWildcardSearchStringAux false pattern

/-- Canonical form of a wildcard query, as the native `Query` stores it. -/
def WildcardQuery.canonical (w : WildcardQuery) : WildcardQuery :=
  ⟨clean_up_wildcard_search_string w.wildcard_query, w.case_sensitive⟩

/-- Well-formedness of a canonicalized pattern: scanning left to right with
escape awareness, no unescaped `*` is immediately followed by another `*`,
and no lone trailing backslash remains. -/
def wellFormedCanonical : List Char → Prop
  | [] => True
  | ['\\'] => False
  | '\\' :: _ :: rest => wellFormedCanonical rest
  | '*' :: rest => rest.head? ≠ some '*' ∧ wellFormedCanonical rest
  | _ :: rest => wellFormedCanonical rest

theorem cleanAux_true_head_ne_star (l : List Char) :
    (cleanUpWildcardSearchStringAux true l).head? ≠ some '*' := by
  induction l with
  | nil => simp [cleanUpWildcardSearchStringAux]
  | cons c rest ih =>
    by_cases hc : c = '\\'
    · subst hc
      match rest with
      | [] => simp [cleanUpWildcardSearchStringAux]
      | c2 :: rest' =>
        by_cases h2 : c2 = '*' ∨ c2 = '?' ∨ c2 = '\\'
        · simp [cleanUpWildcardSearchStringAux, h2]
        · simp [cleanUpWildcardSearchStringAux, h2]
          exact fun hx => h2 (Or.inl hx)
    · by_cases hs : c = '*'
      · subst hs
        rw [show cleanUpWildcardSearchStringAux true ('*' :: rest)
            = cleanUpWildcardSearchStringAux true rest from by
          simp [cleanUpWildcardSearchStringAux]]
        exact ih
      · simp [cleanUpWildcardSearchStringAux, hc, hs]

theorem cleanAux_wellFormed (n : Nat) :
    ∀ l : List Char, l.length ≤ n → ∀ b : Bool,
      wellFormedCanonical (cleanUpWildcardSearchStringAux b l) := by
  induction n with
  | zero =>
    intro l hl b
    have hnil : l = [] := List.length_eq_zero.mp (Nat.le_zero.mp hl)
    subst hnil
    simp [cleanUpWildcardSearchStringAux, wellFormedCanonical]
  | succ k ih =>
    intro l hl b
    match l with
    | [] => simp [cleanUpWildcardSearchStringAux, wellFormedCanonical]
    | c :: rest =>
      simp only [List.length_cons] at hl
      by_cases hc : c = '\\'
      · subst hc
        match rest with
        | [] => simp [cleanUpWildcardSearchStringAux, wellFormedCanonical]
        | c2 :: rest' =>
          simp only [List.length_cons] at hl
          by_cases h2 : c2 = '*' ∨ c2 = '?' ∨ c2 = '\\'
          · rw [show cleanUpWildcardSearchStringAux b ('\\' :: c2 :: rest')
                = '\\' :: c2 :: cleanUpWildcardSearchStringAux false rest' from by
              simp [cleanUpWildcardSearchStringAux, h2]]
            rw [show wellFormedCanonical
                  ('\\' :: c2 :: cleanUpWildcardSearchStringAux false rest')
                = wellFormedCanonical (cleanUpWildcardSearchStringAux false rest') from by
              simp [wellFormedCanonical]]
            exact ih rest' (by omega) false
          · have h2a : ¬ c2 = '\\' := fun hx => h2 (Or.inr (Or.inr hx))
            have h2b : ¬ c2 = '*' := fun hx => h2 (Or.inl hx)
            rw [show cleanUpWildcardSearchStringAux b ('\\' :: c2 :: rest')
                = c2 :: cleanUpWildcardSearchStringAux false rest' from by
              simp [cleanUpWildcardSearchStringAux, h2]]
            rw [show wellFormedCanonical (c2 :: cleanUpWildcardSearchStringAux false rest')
                = wellFormedCanonical (cleanUpWildcardSearchStringAux false rest') from by
              simp [wellFormedCanonical, h2a, h2b]]
            exact ih rest' (by omega) false
      · by_cases hs : c = '*'
        · subst hs
          match b with
          | true =>
            rw [show cleanUpWildcardSearchStringAux true ('*' :: rest)
                = cleanUpWildcardSearchStringAux true rest from by
              simp [cleanUpWildcardSearchStringAux]]
            exact ih rest (by omega) true
          | false =>
            rw [show cleanUpWildcardSearchStringAux false ('*' :: rest)
                = '*' :: cleanUpWildcardSearchStringAux true rest from by
              simp [cleanUpWildcardSearchStringAux]]
            rw [show wellFormedCanonical ('*' :: cleanUpWildcardSearchStringAux true rest)
                = ((cleanUpWildcardSearchStringAux true rest).head? ≠ some '*'
                    ∧ wellFormedCanonical (cleanUpWildcardSearchStringAux true rest)) from by
              simp [wellFormedCanonical]]
            exact ⟨cleanAux_true_head_ne_star rest, ih rest (by omega) true⟩
        · rw [show cleanUpWildcardSearchStringAux b (c :: rest)
              = c :: cleanUpWildcardSearchStringAux false rest from by
            simp [cleanUpWildcardSearchStringAux, hc, hs]]
          rw [show wellFormedCanonical (c :: cleanUpWildcardSearchStringAux false rest)
              = wellFormedCanonical (cleanUpWildcardSearchStringAux false rest) from by
            simp [wellFormedCanonical, hc, hs]]
          exact ih rest (by omega) false

/-- C8: wildcard-pattern canonicalization collapses every run of
consecutive unescaped `*` into a single `*`, drops a trailing lone
backslash that escapes nothing, and preserves escaped metacharacters; in
particular the pattern `"who is \*** pleiades??\"` (with a single trailing
backslash) canonicalizes to exactly `"who is \** pleiades??"`.  The first
conjunct is the concrete instance from
`test_query.py::test_init_wildcard_queries`; the second states that every
canonicalized pattern has no unescaped `*` followed by another `*` and no
trailing lone backslash; the third that an escaped metacharacter at the
head is preserved. -/
theorem wildcard_canonicalization :
    clean_up_wildcard_search_string ("who is \\*** pleiades??\\".toList)
        = ("who is \\** pleiades??").toList
    ∧ (∀ pattern : List Char,
        wellFormedCanonical (clean_up_wildcard_search_string pattern))
    ∧ (∀ (s : List Char) (c : Char), c = '*' ∨ c = '?' ∨ c = '\\' →
        clean_up_wildcard_search_string ('\\' :: c :: s)
          = '\\' :: c :: clean_up_wildcard_search_string s) := by
  refine ⟨by decide, fun p => cleanAux_wellFormed p.length p le_rfl false, ?esc⟩
  intro s c h
  unfold clean_up_wildcard_search_string
  simp [cleanUpWildcardSearchStringAux, h]

namespace ir

/-! ## The native `Query`

`clp_ffi_py.ir.native.Query` is compiled code whose sources are not part of
this tree; the model below follows the spec (§3 "Query", §4.5
"QueryEngine") and is pinned by `test_ir/test_query.py`.
-/

structure Query where
  search_time_lower_bound : Int
  search_time_upper_bound : Int
  search_termination_ts : Int
  wildcard_queries : Option (List WildcardQuery)
  deriving DecidableEq, Repr

/-- Modelled from the spec (§3): the default lower bound spans the full
legal timestamp (int64) domain. -/
def Query.default_search_time_lower_bound : Int := -(2 ^ 63)

/-- Modelled from the spec (§3): the default upper bound spans the full
legal timestamp (int64) domain. -/
def Query.default_search_time_upper_bound : Int := 2 ^ 63 - 1

/-- Modelled from the spec (§3): "a library-defined positive constant".
The spec does not fix its value; any positive constant supports the
properties proved here. -/
def Query.default_search_time_termination_margin : Int := 60 * 1000

def Query.get_search_time_lower_bound (q : Query) : Int := q.search_time_lower_bound

def Query.get_search_time_upper_bound (q : Query) : Int := q.search_time_upper_bound

/-- The margin the query reports: the difference between the stored search
termination timestamp and the upper bound. -/
def Query.get_search_time_termination_margin (q : Query) : Int :=
  q.search_termination_ts - q.search_time_upper_bound

def Query.get_wildcard_queries (q : Query) : Option (List WildcardQuery) :=
  q.wildcard_queries

/-- Modelled from the spec (§3 "Query") and pinned by
`test_query.py::test_init_search_time` and `test_init_wildcard_queries`:
the native `Query.__init__`.  It fails (a Python `RuntimeError`) when the
lower bound exceeds the upper bound.  The stored search-termination
timestamp is the upper bound plus the margin, except that a query whose
upper bound equals the default keeps the default upper bound — the test
notes that otherwise the margin "will overflow the underlying integer that
stores the search termination timestamp".  Wildcard queries are
canonicalized when stored; `None` and an empty list are both stored as
`None`. -/
def Query.init (search_time_lower_bound search_time_upper_bound
    search_time_termination_margin : Int)
    (wildcard_queries : Option (List WildcardQuery)) : Except String Query :=
  if search_time_upper_bound < search_time_lower_bound then
    .error "search_time_lower_bound exceeds search_time_upper_bound"
  else
    .ok {
      search_time_lower_bound := search_time_lower_bound
      search_time_upper_bound := search_time_upper_bound
      search_termination_ts :=
        if search_time_upper_bound = Query.default_search_time_upper_bound then
          Query.default_search_time_upper_bound
        else search_time_upper_bound + search_time_termination_margin
      wildcard_queries :=
        match wildcard_queries with
        | none => none
        | some [] => none
        | some l => some (l.map WildcardQuery.canonical) }

/-- The Python-level call `Query(...)` with keyword defaults: an omitted
argument (`none` here) defaults to the corresponding class constant. -/
def QueryPy (search_time_lower_bound search_time_upper_bound
    search_time_termination_margin : Option Int)
    (wildcard_queries : Option (List WildcardQuery)) : Except String Query :=
  Query.init
    (search_time_lower_bound.getD Query.default_search_time_lower_bound)
    (search_time_upper_bound.getD Query.default_search_time_upper_bound)
    (search_time_termination_margin.getD Query.default_search_time_termination_margin)
    wildcard_queries

/-- Modelled from the spec (§4.5): `Query.match_log_event` — the event's
timestamp must lie in the inclusive search-time range AND, when a
wildcard-query list is stored, the message must match at least one stored
pattern under that pattern's case-sensitivity flag.  The wildcard glob
matcher itself is an external capability (spec §1 OUT OF SCOPE), supplied
as `matcher message pattern case_sensitive`. -/
def Query.match_log_event (matcher : List Nat → List Char → Bool → Bool)
    (q : Query) (log_event : LogEvent) : Bool :=
  (decide (q.search_time_lower_bound ≤ log_event.timestamp)
      && decide (log_event.timestamp ≤ q.search_time_upper_bound))
    && match q.wildcard_queries with
       | none => true
       | some l =>
         l.any fun w => matcher log_event.log_message w.wildcard_query w.case_sensitive

/-- C2: for every log event and every constructible `Query`,
`match_log_event` returns true iff the event's timestamp satisfies
`lower_bound ≤ ts ≤ upper_bound` (both ends inclusive) AND the query's
wildcard-query list is `None` or empty OR the message matches at least one
stored (canonicalized) pattern under that pattern's case-sensitivity flag
— for every choice of the external glob matcher.  In particular an empty
`Query()` matches every event with an int64 timestamp, and so does a
`Query` built with an explicit empty `wildcard_queries=[]` list. -/
theorem query_match_semantics :
    (∀ (matcher : List Nat → List Char → Bool → Bool)
       (lb ub margin : Int) (wqs : Option (List WildcardQuery)) (q : Query),
        Query.init lb ub margin wqs = .ok q →
        ∀ ev : LogEvent,
          (Query.match_log_event matcher q ev = true
            ↔ lb ≤ ev.timestamp ∧ ev.timestamp ≤ ub
              ∧ (wqs = none ∨ wqs = some []
                 ∨ ∃ w ∈ wqs.getD [],
                     matcher ev.log_message
                       (clean_up_wildcard_search_string w.wildcard_query)
                       w.case_sensitive = true)))
    ∧ (∀ (matcher : List Nat → List Char → Bool → Bool) (ev : LogEvent) (q : Query),
        QueryPy none none none none = .ok q →
        -(2 ^ 63 : Int) ≤ ev.timestamp → ev.timestamp ≤ 2 ^ 63 - 1 →
        Query.match_log_event matcher q ev = true)
    ∧ (∀ (matcher : List Nat → List Char → Bool → Bool) (ev : LogEvent) (q : Query),
        QueryPy none none none (some []) = .ok q →
        -(2 ^ 63 : Int) ≤ ev.timestamp → ev.timestamp ≤ 2 ^ 63 - 1 →
        Query.match_log_event matcher q ev = true) := by
  have hmain : ∀ (matcher : List Nat → List Char → Bool → Bool)
      (lb ub margin : Int) (wqs : Option (List WildcardQuery)) (q : Query),
      Query.init lb ub margin wqs = .ok q →
      ∀ ev : LogEvent,
        (Query.match_log_event matcher q ev = true
          ↔ lb ≤ ev.timestamp ∧ ev.timestamp ≤ ub
            ∧ (wqs = none ∨ wqs = some []
               ∨ ∃ w ∈ wqs.getD [],
                   matcher ev.log_message
                     (clean_up_wildcard_search_string w.wildcard_query)
                     w.case_sensitive = true)) := by
    intro matcher lb ub margin wqs q h ev
    unfold Query.init at h
    by_cases hlt : ub < lb
    · rw [if_pos hlt] at h
      simp at h
    · rw [if_neg hlt] at h
      simp only [Except.ok.injEq] at h
      subst h
      match wqs with
      | none =>
        simp [Query.match_log_event]
      | some [] =>
        simp [Query.match_log_event]
      | some (w :: l) =>
        simp only [Query.match_log_event, Bool.and_eq_true, decide_eq_true_eq,
          List.any_eq_true, List.mem_map, Option.getD_some]
        constructor
        · rintro ⟨⟨h1, h2⟩, hw⟩
          refine ⟨h1, h2, Or.inr (Or.inr ?_)⟩
          obtain ⟨x, ⟨w', hw', hx⟩, hmat⟩ := hw
          subst hx
          exact ⟨w', hw', hmat⟩
        · rintro ⟨h1, h2, hdis⟩
          refine ⟨⟨h1, h2⟩, ?_⟩
          rcases hdis with hn | hn | ⟨w', hw', hmat⟩
          · exact absurd hn (by simp)
          · exact absurd hn (by simp)
          · exact ⟨WildcardQuery.canonical w', ⟨w', hw', rfl⟩, hmat⟩
  refine ⟨hmain, ?empty, ?emptyList⟩
  · intro matcher ev q h hlo hhi
    have := (hmain matcher _ _ _ none q h ev).mpr
    exact this ⟨hlo, hhi, Or.inl rfl⟩
  · intro matcher ev q h hlo hhi
    have := (hmain matcher _ _ _ (some []) q h ev).mpr
    exact this ⟨hlo, hhi, Or.inr (Or.inl rfl)⟩

/-- C6 counterexample: `Query(search_time_upper_bound=3270)` customizes
only one bound, yet its search-time termination margin defaults to the
positive library constant, not 0 — exactly what
`test_query.py::test_init_search_time` asserts at lines 98-106. -/
theorem default_margin_counterexample :
    (QueryPy none (some 3270) none none).map Query.get_search_time_termination_margin
        = .ok Query.default_search_time_termination_margin
      ∧ Query.default_search_time_termination_margin ≠ 0 := by
  constructor
  · rfl
  · decide

/-- C6 amended: the default `search_time_termination_margin` is 0 unless
the search-time upper bound is customized (set to a value different from
the default upper bound), in which case the default margin is the
library-defined positive constant — regardless of whether the lower bound
is also customized.  Every `Query` whose upper bound is left at its
default has margin 0, whatever its other arguments. -/
theorem default_margin_amended :
    (∀ (lb margin : Option Int) (wqs : Option (List WildcardQuery)) (q : Query),
        QueryPy lb none margin wqs = .ok q →
        Query.get_search_time_termination_margin q = 0)
    ∧ (∀ (lb : Option Int) (ub : Int) (wqs : Option (List WildcardQuery)) (q : Query),
        ub ≠ Query.default_search_time_upper_bound →
        QueryPy lb (some ub) none wqs = .ok q →
        Query.get_search_time_termination_margin q
          = Query.default_search_time_termination_margin) := by
  constructor
  · intro lb margin wqs q h
    unfold QueryPy Query.init at h
    simp only [Option.getD_none] at h
    by_cases hlt : Query.default_search_time_upper_bound
        < lb.getD Query.default_search_time_lower_bound
    · rw [if_pos hlt] at h
      simp at h
    · rw [if_neg hlt] at h
      simp only [Except.ok.injEq] at h
      subst h
      simp [Query.get_search_time_termination_margin]
  · intro lb ub wqs q hne h
    unfold QueryPy Query.init at h
    simp only [Option.getD_some, Option.getD_none] at h
    by_cases hlt : ub < lb.getD Query.default_search_time_lower_bound
    · rw [if_pos hlt] at h
      simp at h
    · rw [if_neg hlt] at h
      simp only [Except.ok.injEq] at h
      subst h
      simp [Query.get_search_time_termination_margin, hne]

/-- C6 amended witness: the amended rule evaluated at
`Query(search_time_lower_bound=3190)` (margin 0) and at
`Query(search_time_upper_bound=3270)` (margin = the default constant). -/
theorem default_margin_amended_witness :
    (∀ q : Query, QueryPy (some 3190) none none none = .ok q →
        Query.get_search_time_termination_margin q = 0)
    ∧ (∀ q : Query, QueryPy none (some 3270) none none = .ok q →
        Query.get_search_time_termination_margin q
          = Query.default_search_time_termination_margin) :=
  ⟨fun q h => default_margin_amended.1 (some 3190) none none q h,
   fun q h => default_margin_amended.2 none 3270 none q (by decide) h⟩

/-! ## QueryBuilder

Embedded from `clp_ffi_py/ir/query_builder.py`.  The builder's state is its
two bounds, its margin and its wildcard-query list; `build` only reads the
state, which the embedding records by returning the (unchanged) builder
next to the query it constructs.
-/

structure QueryBuilder where
  search_time_lower_bound : Int
  search_time_upper_bound : Int
  search_time_termination_margin : Int
  wildcard_queries : List WildcardQuery
  deriving DecidableEq, Repr

/-- `QueryBuilder.__init__`: every field starts at the `Query` class
default; the wildcard-query list starts empty. -/
def QueryBuilder.new : QueryBuilder :=
  ⟨Query.default_search_time_lower_bound, Query.default_search_time_upper_bound,
   Query.default_search_time_termination_margin, []⟩

def QueryBuilder.set_search_time_lower_bound (b : QueryBuilder) (ts : Int) : QueryBuilder :=
  { b with search_time_lower_bound := ts }

def QueryBuilder.set_search_time_upper_bound (b : QueryBuilder) (ts : Int) : QueryBuilder :=
  { b with search_time_upper_bound := ts }

def QueryBuilder.set_search_time_termination_margin (b : QueryBuilder) (ts : Int) :
    QueryBuilder :=
  { b with search_time_termination_margin := ts }

def QueryBuilder.add_wildcard_query (b : QueryBuilder) (w : WildcardQuery) : QueryBuilder :=
  { b with wildcard_queries := b.wildcard_queries ++ [w] }

def QueryBuilder.add_wildcard_queries (b : QueryBuilder) (ws : List WildcardQuery) :
    QueryBuilder :=
  { b with wildcard_queries := b.wildcard_queries ++ ws }

def QueryBuilder.reset_wildcard_queries (b : QueryBuilder) : QueryBuilder :=
  { b with wildcard_queries := [] }

/-- `QueryBuilder.reset`: restores every default. -/
def QueryBuilder.reset (_ : QueryBuilder) : QueryBuilder := QueryBuilder.new

/-- Errors out of `QueryBuilder.build`: the `QueryBuilderException` raised
when the lower bound exceeds the upper bound, or an error propagated from
the `Query` constructor. -/
inductive QueryBuilderError where
  | queryBuilderException
  | queryError (msg : String)
  deriving DecidableEq, Repr

/-- `QueryBuilder.build` (`query_builder.py:217-236`): raises
`QueryBuilderException` when the lower bound exceeds the upper bound;
otherwise passes `None` in place of an empty wildcard-query list and
constructs the `Query` from the configured fields.  The returned builder
is the (unchanged) post-call state. -/
def QueryBuilder.build (b : QueryBuilder) : Except QueryBuilderError (Query × QueryBuilder) :=
  if b.search_time_upper_bound < b.search_time_lower_bound then
    .error .queryBuilderException
  else
    match Query.init b.search_time_lower_bound b.search_time_upper_bound
        b.search_time_termination_margin
        (if b.wildcard_queries.length = 0 then none else some b.wildcard_queries) with
    | .error e => .error (.queryError e)
    | .ok q => .ok (q, b)

/-- C7: for every builder state, `build()` fails iff the configured lower
bound strictly exceeds the configured upper bound, and the failure is
`QueryBuilderException`; with equal bounds `build()` succeeds and returns,
next to the unchanged builder state, exactly the `Query` the `Query`
constructor yields from the configured bounds, margin and wildcard
queries (whose bound getters report the configured bounds). -/
theorem query_builder_build :
    (∀ b : QueryBuilder,
        (∃ e, QueryBuilder.build b = .error e)
          ↔ b.search_time_upper_bound < b.search_time_lower_bound)
    ∧ (∀ b : QueryBuilder,
        QueryBuilder.build b = .error QueryBuilderError.queryBuilderException
          ↔ b.search_time_upper_bound < b.search_time_lower_bound)
    ∧ (∀ b : QueryBuilder, b.search_time_lower_bound = b.search_time_upper_bound →
        ∃ q : Query, QueryBuilder.build b = .ok (q, b)
          ∧ Query.init b.search_time_lower_bound b.search_time_upper_bound
              b.search_time_termination_margin
              (if b.wildcard_queries.length = 0 then none
               else some b.wildcard_queries) = .ok q
          ∧ q.get_search_time_lower_bound = b.search_time_lower_bound
          ∧ q.get_search_time_upper_bound = b.search_time_upper_bound) := by
  have hok : ∀ b : QueryBuilder,
      ¬ b.search_time_upper_bound < b.search_time_lower_bound →
      QueryBuilder.build b
        = .ok (⟨b.search_time_lower_bound, b.search_time_upper_bound,
            (if b.search_time_upper_bound = Query.default_search_time_upper_bound then
              Query.default_search_time_upper_bound
            else b.search_time_upper_bound + b.search_time_termination_margin),
            (match (if b.wildcard_queries.length = 0 then none
                    else some b.wildcard_queries) with
             | none => none
             | some [] => none
             | some l => some (l.map WildcardQuery.canonical))⟩, b)
        ∧ Query.init b.search_time_lower_bound b.search_time_upper_bound
            b.search_time_termination_margin
            (if b.wildcard_queries.length = 0 then none else some b.wildcard_queries)
          = .ok ⟨b.search_time_lower_bound, b.search_time_upper_bound,
              (if b.search_time_upper_bound = Query.default_search_time_upper_bound then
                Query.default_search_time_upper_bound
              else b.search_time_upper_bound + b.search_time_termination_margin),
              (match (if b.wildcard_queries.length = 0 then none
                      else some b.wildcard_queries) with
               | none => none
               | some [] => none
               | some l => some (l.map WildcardQuery.canonical))⟩ := by
    intro b hnlt
    have hinit : Query.init b.search_time_lower_bound b.search_time_upper_bound
        b.search_time_termination_margin
        (if b.wildcard_queries.length = 0 then none else some b.wildcard_queries)
        = .ok ⟨b.search_time_lower_bound, b.search_time_upper_bound,
            (if b.search_time_upper_bound = Query.default_search_time_upper_bound then
              Query.default_search_time_upper_bound
            else b.search_time_upper_bound + b.search_time_termination_margin),
            (match (if b.wildcard_queries.length = 0 then none
                    else some b.wildcard_queries) with
             | none => none
             | some [] => none
             | some l => some (l.map WildcardQuery.canonical))⟩ := by
      unfold Query.init
      rw [if_neg hnlt]
    refine ⟨?_, hinit⟩
    unfold QueryBuilder.build
    rw [if_neg hnlt, hinit]
  refine ⟨?firstPart, ?secondPart, ?thirdPart⟩
  · intro b
    constructor
    · rintro ⟨e, he⟩
      by_cases hlt : b.search_time_upper_bound < b.search_time_lower_bound
      · exact hlt
      · rw [(hok b hlt).1] at he
        simp at he
    · intro hlt
      refine ⟨.queryBuilderException, ?_⟩
      unfold QueryBuilder.build
      rw [if_pos hlt]
  · intro b
    constructor
    · intro he
      by_cases hlt : b.search_time_upper_bound < b.search_time_lower_bound
      · exact hlt
      · rw [(hok b hlt).1] at he
        simp at he
    · intro hlt
      unfold QueryBuilder.build
      rw [if_pos hlt]
  · intro b heq
    have hnlt : ¬ b.search_time_upper_bound < b.search_time_lower_bound := by omega
    exact ⟨_, (hok b hnlt).1, (hok b hnlt).2, rfl, rfl⟩

/-- C7 witness: a builder whose lower bound 3270 exceeds its upper bound
3190 fails with `QueryBuilderException`, and a builder with both bounds
16384 builds successfully. -/
theorem query_builder_build_witness :
    (QueryBuilder.build ⟨3270, 3190, 0, []⟩ = .error QueryBuilderError.queryBuilderException)
    ∧ (∃ q : Query, QueryBuilder.build ⟨16384, 16384, 123, []⟩
          = .ok (q, ⟨16384, 16384, 123, []⟩)
        ∧ Query.init 16384 16384 123 none = .ok q
        ∧ q.get_search_time_lower_bound = 16384
        ∧ q.get_search_time_upper_bound = 16384) := by
  constructor
  · exact (query_builder_build.2.1 ⟨3270, 3190, 0, []⟩).mpr (by decide)
  · exact query_builder_build.2.2 ⟨16384, 16384, 123, []⟩ rfl

/-- C10: for every builder whose wildcard-query list is empty at build
time, `build()` passes `None` (not an empty list) to the `Query`
constructor, so the built query's `get_wildcard_queries()` returns
`None`. -/
theorem build_empty_wildcard_queries_none (b : QueryBuilder)
    (hempty : b.wildcard_queries = [])
    (hle : b.search_time_lower_bound ≤ b.search_time_upper_bound) :
    ∃ q : Query, QueryBuilder.build b = .ok (q, b) ∧ q.get_wildcard_queries = none := by
  have hnlt : ¬ b.search_time_upper_bound < b.search_time_lower_bound := by omega
  refine ⟨⟨b.search_time_lower_bound, b.search_time_upper_bound,
      (if b.search_time_upper_bound = Query.default_search_time_upper_bound then
        Query.default_search_time_upper_bound
      else b.search_time_upper_bound + b.search_time_termination_margin), none⟩, ?_, rfl⟩
  unfold QueryBuilder.build
  rw [if_neg hnlt]
  have hinit : Query.init b.search_time_lower_bound b.search_time_upper_bound
      b.search_time_termination_margin
      (if b.wildcard_queries.length = 0 then none else some b.wildcard_queries)
      = .ok ⟨b.search_time_lower_bound, b.search_time_upper_bound,
          (if b.search_time_upper_bound = Query.default_search_time_upper_bound then
            Query.default_search_time_upper_bound
          else b.search_time_upper_bound + b.search_time_termination_margin), none⟩ := by
    rw [hempty]
    unfold Query.init
    rw [if_neg hnlt]
    rfl
  rw [hinit]

/-- C10 witness: a freshly constructed builder builds a `Query` whose
`get_wildcard_queries()` is `None`. -/
theorem build_empty_wildcard_queries_none_witness :
    ∃ q : Query, QueryBuilder.build QueryBuilder.new = .ok (q, QueryBuilder.new)
      ∧ q.get_wildcard_queries = none :=
  build_empty_wildcard_queries_none QueryBuilder.new rfl (by decide)

/-! ## Aliasing model for the `wildcard_queries` property

Python lists are heap objects shared by reference.  To state that the
`wildcard_queries` property returns a defensive copy, the builder's list is
placed in an explicit store of list objects: a reference is an index into
the store, mutation updates one cell, and `deepcopy` allocates a fresh
cell holding the same contents.
-/

/-- A store of Python list objects holding wildcard queries; a reference is
an index into the store. -/
abbrev PyHeap : Type := List (List WildcardQuery)

/-- Dereference: the list object a reference designates (the empty list for
a dangling reference). -/
def PyHeap.lookup (h : PyHeap) (r : Nat) : List WildcardQuery :=
  List.getD h r []

/-- Allocate a fresh list object, returning its reference. -/
def PyHeap.alloc (h : PyHeap) (v : List WildcardQuery) : Nat × PyHeap :=
  (List.length h, h ++ [v])

/-- `referenced_list.append(w)`: in-place mutation of one list object. -/
def PyHeap.append_to (h : PyHeap) (r : Nat) (w : WildcardQuery) : PyHeap :=
  List.set h r (PyHeap.lookup h r ++ [w])

/-- A `QueryBuilder` whose wildcard-query list lives in the store. -/
structure QueryBuilderObj where
  search_time_lower_bound : Int
  search_time_upper_bound : Int
  search_time_termination_margin : Int
  wildcard_queries_ref : Nat
  deriving DecidableEq, Repr

/-- The `QueryBuilder.wildcard_queries` property
(`query_builder.py:54-59`): returns `deepcopy(self._wildcard_queries)` — a
freshly allocated list object holding the same contents as the builder's
internal list. -/
def QueryBuilderObj.wildcard_queries_property (b : QueryBuilderObj) (h : PyHeap) :
    Nat × PyHeap :=
  h.alloc (h.lookup b.wildcard_queries_ref)

/-- The builder's value once its wildcard-query reference is read through
the store. -/
def QueryBuilderObj.toBuilder (b : QueryBuilderObj) (h : PyHeap) : QueryBuilder :=
  ⟨b.search_time_lower_bound, b.search_time_upper_bound,
   b.search_time_termination_margin, h.lookup b.wildcard_queries_ref⟩

/-- `build()` on a store-resident builder. -/
def QueryBuilderObj.build (b : QueryBuilderObj) (h : PyHeap) :
    Except QueryBuilderError (Query × QueryBuilder) :=
  QueryBuilder.build (b.toBuilder h)

/-- C9: the `wildcard_queries` property returns a copy that is independent
of the builder: appending to the returned list object leaves the builder's
internal wildcard-query list — and hence every subsequently built `Query`
— unchanged; and the returned object does hold the same contents as the
internal list. -/
theorem wildcard_queries_defensive_copy (h : PyHeap) (b : QueryBuilderObj)
    (w : WildcardQuery) (hvalid : b.wildcard_queries_ref < List.length h) :
    PyHeap.lookup
        (PyHeap.append_to (b.wildcard_queries_property h).2
          (b.wildcard_queries_property h).1 w)
        b.wildcard_queries_ref
      = PyHeap.lookup h b.wildcard_queries_ref
    ∧ QueryBuilderObj.build b
        (PyHeap.append_to (b.wildcard_queries_property h).2
          (b.wildcard_queries_property h).1 w)
      = QueryBuilderObj.build b h
    ∧ PyHeap.lookup (b.wildcard_queries_property h).2 (b.wildcard_queries_property h).1
      = PyHeap.lookup h b.wildcard_queries_ref := by
  have hlookup : ∀ x : List WildcardQuery,
      PyHeap.lookup (List.set (h ++ [PyHeap.lookup h b.wildcard_queries_ref])
          (List.length h) x)
        b.wildcard_queries_ref
      = PyHeap.lookup h b.wildcard_queries_ref := by
    intro x
    unfold PyHeap.lookup
    rw [List.getD_eq_getElem?_getD, List.getD_eq_getElem?_getD]
    rw [List.getElem?_set_ne (by omega)]
    rw [List.getElem?_append_left hvalid]
  have h1 : PyHeap.lookup
      (PyHeap.append_to (b.wildcard_queries_property h).2
        (b.wildcard_queries_property h).1 w)
      b.wildcard_queries_ref
      = PyHeap.lookup h b.wildcard_queries_ref := by
    unfold QueryBuilderObj.wildcard_queries_property PyHeap.alloc PyHeap.append_to
    exact hlookup _
  refine ⟨h1, ?_, ?_⟩
  · unfold QueryBuilderObj.build QueryBuilderObj.toBuilder
    rw [h1]
  · unfold QueryBuilderObj.wildcard_queries_property PyHeap.alloc PyHeap.lookup
    rw [List.getD_eq_getElem?_getD, List.getElem?_concat_length]
    rfl

/-- C9 witness: the defensive copy evaluated on a one-object store. -/
theorem wildcard_queries_defensive_copy_witness :
    PyHeap.lookup
        (PyHeap.append_to
          ((QueryBuilderObj.mk 0 0 0 0).wildcard_queries_property [[]]).2
          ((QueryBuilderObj.mk 0 0 0 0).wildcard_queries_property [[]]).1
          ⟨['a'], false⟩)
        0
      = PyHeap.lookup [[]] 0
    ∧ QueryBuilderObj.build ⟨0, 0, 0, 0⟩
        (PyHeap.append_to
          ((QueryBuilderObj.mk 0 0 0 0).wildcard_queries_property [[]]).2
          ((QueryBuilderObj.mk 0 0 0 0).wildcard_queries_property [[]]).1
          ⟨['a'], false⟩)
      = QueryBuilderObj.build ⟨0, 0, 0, 0⟩ [[]]
    ∧ PyHeap.lookup ((QueryBuilderObj.mk 0 0 0 0).wildcard_queries_property [[]]).2
        ((QueryBuilderObj.mk 0 0 0 0).wildcard_queries_property [[]]).1
      = PyHeap.lookup [[]] 0 :=
  wildcard_queries_defensive_copy [[]] ⟨0, 0, 0, 0⟩ ⟨['a'], false⟩ (by decide)

/-! ## The key-value pair IR codec

The native `Serializer`, `Deserializer` and `KeyValuePairLogEvent` of
`clp_ffi_py.ir.native` are compiled code whose sources are not part of this
tree; this section models them from the spec (§4.4 "KeyValueCodec", §6
"Key-value IR layout") and the behaviors pinned by
`test_ir/test_serder.py` and `test_ir/test_key_value_pair_log_event.py`.
The msgpack codec is an external capability (spec §1, §6:
`encode(map) -> bytes`, `decode(bytes) -> map`); it is modelled below by a
concrete self-delimiting tag+payload encoding over a value tree of
{int, float, bool, string, null, nested map, array}.  Float values carry
their (opaque) bit pattern; no floating-point arithmetic is modelled.
-/

/-- Base-128 varint encoding of a natural number (least-significant group
first, high bit of a byte marking continuation). -/
def encodeVarNat (n : Nat) : List Nat :=
  if h : n < 128 then [n] else (128 + n % 128) :: encodeVarNat (n / 128)
  termination_by n
  decreasing_by omega

/-- Read one base-128 varint off the front of a byte list. -/
def readVarNat : List Nat → Option (Nat × List Nat)
  | [] => none
  | b :: rest =>
    if b < 128 then some (b, rest)
    else
      match readVarNat rest with
      | none => none
      | some (m, rest') => some ((b - 128) + 128 * m, rest')

theorem readVarNat_encodeVarNat (n : Nat) (rest : List Nat) :
    readVarNat (encodeVarNat n ++ rest) = some (n, rest) := by
  induction n using Nat.strong_induction_on with
  | _ n ih =>
    rw [encodeVarNat]
    by_cases h : n < 128
    · rw [dif_pos h]
      simp [readVarNat, h]
    · rw [dif_neg h]
      have hge : ¬ 128 + n % 128 < 128 := by omega
      have hlist : ((128 + n % 128) :: encodeVarNat (n / 128)) ++ rest
          = (128 + n % 128) :: (encodeVarNat (n / 128) ++ rest) := by simp
      rw [hlist, readVarNat, if_neg hge, ih (n / 128) (by omega)]
      have h1 : 128 + n % 128 - 128 = n % 128 := by omega
      rw [h1]
      show some (n % 128 + 128 * (n / 128), rest) = some (n, rest)
      rw [Nat.mod_add_div]

/-- Sign-and-magnitude integer encoding on top of the varint. -/
def encodeVarInt (i : Int) : List Nat :=
  if i < 0 then 1 :: encodeVarNat i.natAbs else 0 :: encodeVarNat i.toNat

/-- Read one sign-and-magnitude integer. -/
def readVarInt : List Nat → Option (Int × List Nat)
  | [] => none
  | s :: rest =>
    match readVarNat rest with
    | none => none
    | some (m, rest') => some (if s = 1 then -(m : Int) else (m : Int), rest')

theorem readVarInt_encodeVarInt (i : Int) (rest : List Nat) :
    readVarInt (encodeVarInt i ++ rest) = some (i, rest) := by
  unfold encodeVarInt
  by_cases h : i < 0
  · rw [if_pos h]
    simp only [List.cons_append, readVarInt, readVarNat_encodeVarNat]
    rw [if_pos trivial]
    have h1 : -((i.natAbs : Nat) : Int) = i := by omega
    rw [h1]
  · rw [if_neg h]
    simp only [List.cons_append, readVarInt, readVarNat_encodeVarNat]
    rw [if_neg (by norm_num : ¬ (0 : Nat) = 1)]
    have h1 : ((i.toNat : Nat) : Int) = i := by omega
    rw [h1]

/-- Length-prefixed byte string. -/
def encodeBytes (s : List Nat) : List Nat := encodeVarNat s.length ++ s

/-- Read one length-prefixed byte string. -/
def readBytes (bs : List Nat) : Option (List Nat × List Nat) :=
  match readVarNat bs with
  | none => none
  | some (len, rest) =>
    if rest.length < len then none else some (rest.take len, rest.drop len)

theorem readBytes_encodeBytes (s rest : List Nat) :
    readBytes (encodeBytes s ++ rest) = some (s, rest) := by
  unfold encodeBytes readBytes
  rw [List.append_assoc]
  simp only [readVarNat_encodeVarNat]
  rw [if_neg (by simp)]
  simp

mutual

/-- Modelled from the spec: the value trees the key-value codec carries —
{int, float, bool, string, null, nested map, array}.  `vfloat` carries the
float's opaque bit pattern. -/
inductive MsgpackValue where
  | vint (i : Int)
  | vfloat (bits : Nat)
  | vbool (b : Bool)
  | vstr (s : List Nat)
  | vnull
  | vmap (m : MsgpackEntries)
  | varr (a : MsgpackElems)

/-- A map: a sequence of (string key, value) entries, insertion-ordered. -/
inductive MsgpackEntries where
  | nil
  | cons (key : List Nat) (v : MsgpackValue) (rest : MsgpackEntries)

/-- An array of values. -/
inductive MsgpackElems where
  | nil
  | cons (v : MsgpackValue) (rest : MsgpackElems)

end

def MsgpackEntries.count : MsgpackEntries → Nat
  | .nil => 0
  | .cons _ _ rest => rest.count + 1

def MsgpackElems.count : MsgpackElems → Nat
  | .nil => 0
  | .cons _ rest => rest.count + 1

mutual

/-- Nesting depth of a value (the fuel the decoder needs). -/
def valueDepth : MsgpackValue → Nat
  | .vmap m => entriesDepth m + 1
  | .varr a => elemsDepth a + 1
  | _ => 1

/-- Nesting depth of a map's entries. -/
def entriesDepth : MsgpackEntries → Nat
  | .nil => 0
  | .cons _ v rest => max (valueDepth v) (entriesDepth rest)

/-- Nesting depth of an array's elements. -/
def elemsDepth : MsgpackElems → Nat
  | .nil => 0
  | .cons v rest => max (valueDepth v) (elemsDepth rest)

end

mutual

/-- Modelled from the spec: the external msgpack `encode` capability —
tag byte, then a self-delimiting payload. -/
def encodeValue : MsgpackValue → List Nat
  | .vint i => 0 :: encodeVarInt i
  | .vfloat bits => 1 :: encodeVarNat bits
  | .vbool b => 2 :: [if b then 1 else 0]
  | .vstr s => 3 :: encodeBytes s
  | .vnull => [4]
  | .vmap m => 5 :: (encodeVarNat m.count ++ encodeEntries m)
  | .varr a => 6 :: (encodeVarNat a.count ++ encodeElems a)

/-- Encoding of a map's entries: each key (length-prefixed) followed by its
value. -/
def encodeEntries : MsgpackEntries → List Nat
  | .nil => []
  | .cons k v rest => encodeBytes k ++ encodeValue v ++ encodeEntries rest

/-- Encoding of an array's elements. -/
def encodeElems : MsgpackElems → List Nat
  | .nil => []
  | .cons v rest => encodeValue v ++ encodeElems rest

end

/-- Read a single byte. -/
def readByte : List Nat → Option (Nat × List Nat)
  | [] => none
  | b :: rest => some (b, rest)

mutual

/-- Modelled from the spec: the external msgpack `decode` capability.
`fuel` bounds the nesting depth. -/
def decodeValue (fuel : Nat) (bs : List Nat) : Option (MsgpackValue × List Nat) :=
  if hf : fuel = 0 then none
  else
    match bs with
    | [] => none
    | t :: rest =>
      if t = 0 then (readVarInt rest).map (fun p => (.vint p.1, p.2))
      else if t = 1 then (readVarNat rest).map (fun p => (.vfloat p.1, p.2))
      else if t = 2 then (readByte rest).map (fun p => (.vbool (decide (p.1 ≠ 0)), p.2))
      else if t = 3 then (readBytes rest).map (fun p => (.vstr p.1, p.2))
      else if t = 4 then some (.vnull, rest)
      else if t = 5 then
        (readVarNat rest).bind (fun p =>
          (decodeEntries (fuel - 1) p.1 p.2).map (fun q => (.vmap q.1, q.2)))
      else if t = 6 then
        (readVarNat rest).bind (fun p =>
          (decodeElems (fuel - 1) p.1 p.2).map (fun q => (.varr q.1, q.2)))
      else none
  termination_by (fuel, 0)
  decreasing_by
    · exact Prod.Lex.left _ _ (by omega)
    · exact Prod.Lex.left _ _ (by omega)

/-- Decode `n` map entries. -/
def decodeEntries (fuel n : Nat) (bs : List Nat) : Option (MsgpackEntries × List Nat) :=
  if hn : n = 0 then some (.nil, bs)
  else
    (readBytes bs).bind (fun pk =>
      (decodeValue fuel pk.2).bind (fun pv =>
        (decodeEntries fuel (n - 1) pv.2).map (fun pm =>
          (.cons pk.1 pv.1 pm.1, pm.2))))
  termination_by (fuel, n)
  decreasing_by
    · exact Prod.Lex.right _ (by omega)
    · exact Prod.Lex.right _ (by omega)

/-- Decode `n` array elements. -/
def decodeElems (fuel n : Nat) (bs : List Nat) : Option (MsgpackElems × List Nat) :=
  if hn : n = 0 then some (.nil, bs)
  else
    (decodeValue fuel bs).bind (fun pv =>
      (decodeElems fuel (n - 1) pv.2).map (fun pa =>
        (.cons pv.1 pa.1, pa.2)))
  termination_by (fuel, n)
  decreasing_by
    · exact Prod.Lex.right _ (by omega)
    · exact Prod.Lex.right _ (by omega)

end

theorem one_le_valueDepth (v : MsgpackValue) : 1 ≤ valueDepth v := by
  cases v <;> simp [valueDepth]

mutual

theorem decodeValue_encodeValue (fuel : Nat) (v : MsgpackValue) (rest : List Nat)
    (h : valueDepth v ≤ fuel) :
    decodeValue fuel (encodeValue v ++ rest) = some (v, rest) := by
  have hone : 1 ≤ valueDepth v := one_le_valueDepth v
  have hf : ¬ fuel = 0 := by omega
  match v with
  | .vint i =>
    have hlist : encodeValue (.vint i) ++ rest = 0 :: (encodeVarInt i ++ rest) := by
      simp [encodeValue]
    rw [hlist, decodeValue.eq_def, dif_neg hf]
    simp [readVarInt_encodeVarInt]
  | .vfloat bits =>
    have hlist : encodeValue (.vfloat bits) ++ rest = 1 :: (encodeVarNat bits ++ rest) := by
      simp [encodeValue]
    rw [hlist, decodeValue.eq_def, dif_neg hf]
    simp [readVarNat_encodeVarNat]
  | .vbool b =>
    have hlist : encodeValue (.vbool b) ++ rest
        = 2 :: ((if b then 1 else 0) :: rest) := by
      simp [encodeValue]
    rw [hlist, decodeValue.eq_def, dif_neg hf]
    cases b <;> simp [readByte]
  | .vstr s =>
    have hlist : encodeValue (.vstr s) ++ rest = 3 :: (encodeBytes s ++ rest) := by
      simp [encodeValue]
    rw [hlist, decodeValue.eq_def, dif_neg hf]
    simp [readBytes_encodeBytes]
  | .vnull =>
    have hlist : encodeValue .vnull ++ rest = 4 :: rest := by
      simp [encodeValue]
    rw [hlist, decodeValue.eq_def, dif_neg hf]
    simp
  | .vmap m =>
    have hdepth : entriesDepth m ≤ fuel - 1 := by
      simp [valueDepth] at h
      omega
    have hlist : encodeValue (.vmap m) ++ rest
        = 5 :: (encodeVarNat m.count ++ (encodeEntries m ++ rest)) := by
      simp [encodeValue]
    rw [hlist, decodeValue.eq_def, dif_neg hf]
    simp [readVarNat_encodeVarNat,
      decodeEntries_encodeEntries (fuel - 1) m rest hdepth]
  | .varr a =>
    have hdepth : elemsDepth a ≤ fuel - 1 := by
      simp [valueDepth] at h
      omega
    have hlist : encodeValue (.varr a) ++ rest
        = 6 :: (encodeVarNat a.count ++ (encodeElems a ++ rest)) := by
      simp [encodeValue]
    rw [hlist, decodeValue.eq_def, dif_neg hf]
    simp [readVarNat_encodeVarNat,
      decodeElems_encodeElems (fuel - 1) a rest hdepth]

theorem decodeEntries_encodeEntries (fuel : Nat) (m : MsgpackEntries) (rest : List Nat)
    (h : entriesDepth m ≤ fuel) :
    decodeEntries fuel m.count (encodeEntries m ++ rest) = some (m, rest) := by
  match m with
  | .nil =>
    rw [decodeEntries.eq_def]
    simp [MsgpackEntries.count, encodeEntries]
  | .cons k v m' =>
    have hv : valueDepth v ≤ fuel := by
      simp [entriesDepth] at h
      exact h.1
    have hm : entriesDepth m' ≤ fuel := by
      simp [entriesDepth] at h
      exact h.2
    have hlist : encodeEntries (.cons k v m') ++ rest
        = encodeBytes k ++ (encodeValue v ++ (encodeEntries m' ++ rest)) := by
      simp [encodeEntries]
    rw [decodeEntries.eq_def, dif_neg (by simp [MsgpackEntries.count]), hlist]
    simp [readBytes_encodeBytes, decodeValue_encodeValue fuel v _ hv,
      MsgpackEntries.count, decodeEntries_encodeEntries fuel m' rest hm]

theorem decodeElems_encodeElems (fuel : Nat) (a : MsgpackElems) (rest : List Nat)
    (h : elemsDepth a ≤ fuel) :
    decodeElems fuel a.count (encodeElems a ++ rest) = some (a, rest) := by
  match a with
  | .nil =>
    rw [decodeElems.eq_def]
    simp [MsgpackElems.count, encodeElems]
  | .cons v a' =>
    have hv : valueDepth v ≤ fuel := by
      simp [elemsDepth] at h
      exact h.1
    have ha : elemsDepth a' ≤ fuel := by
      simp [elemsDepth] at h
      exact h.2
    have hlist : encodeElems (.cons v a') ++ rest
        = encodeValue v ++ (encodeElems a' ++ rest) := by
      simp [encodeElems]
    rw [decodeElems.eq_def, dif_neg (by simp [MsgpackElems.count]), hlist]
    simp [decodeValue_encodeValue fuel v _ hv, MsgpackElems.count,
      decodeElems_encodeElems fuel a' rest ha]

end

mutual

theorem valueDepth_le_length (v : MsgpackValue) :
    valueDepth v ≤ (encodeValue v).length := by
  match v with
  | .vint i => simp [valueDepth, encodeValue]
  | .vfloat bits => simp [valueDepth, encodeValue]
  | .vbool b => simp [valueDepth, encodeValue]
  | .vstr s => simp [valueDepth, encodeValue]
  | .vnull => simp [valueDepth, encodeValue]
  | .vmap m =>
    have h := entriesDepth_le_length m
    simp [valueDepth, encodeValue]
    omega
  | .varr a =>
    have h := elemsDepth_le_length a
    simp [valueDepth, encodeValue]
    omega

theorem entriesDepth_le_length (m : MsgpackEntries) :
    entriesDepth m ≤ (encodeEntries m).length := by
  match m with
  | .nil => simp [entriesDepth, encodeEntries]
  | .cons k v m' =>
    have h1 := valueDepth_le_length v
    have h2 := entriesDepth_le_length m'
    simp [entriesDepth, encodeEntries]
    omega

theorem elemsDepth_le_length (a : MsgpackElems) :
    elemsDepth a ≤ (encodeElems a).length := by
  match a with
  | .nil => simp [elemsDepth, encodeElems]
  | .cons v a' =>
    have h1 := valueDepth_le_length v
    have h2 := elemsDepth_le_length a'
    simp [elemsDepth, encodeElems]
    omega

end

/-- Decode one complete msgpack payload (exactly the whole byte string). -/
def decodeWhole (bs : List Nat) : Option MsgpackValue :=
  match decodeValue bs.length bs with
  | some (v, []) => some v
  | _ => none

theorem decodeWhole_encodeValue (v : MsgpackValue) :
    decodeWhole (encodeValue v) = some v := by
  unfold decodeWhole
  have h := decodeValue_encodeValue (encodeValue v).length v [] (valueDepth_le_length v)
  rw [List.append_nil] at h
  rw [h]

/-- One decoded key-value pair log event: the auto-generated and
user-generated msgpack map payloads as received off the stream. -/
structure KeyValuePairLogEvent where
  auto_gen_payload : List Nat
  user_gen_payload : List Nat
  deriving DecidableEq, Repr

/-- Modelled from the spec (§4.4): `KeyValuePairLogEvent.to_dict` — a pure,
repeatable projection decoding the two msgpack payloads into native value
trees (the auto-generated map first, the user-generated map second). -/
def KeyValuePairLogEvent.to_dict (ev : KeyValuePairLogEvent) :
    Option (MsgpackValue × MsgpackValue) :=
  match decodeWhole ev.auto_gen_payload, decodeWhole ev.user_gen_payload with
  | some a, some u => some (a, u)
  | _, _ => none

theorem to_dict_encode (a u : MsgpackEntries) :
    KeyValuePairLogEvent.to_dict ⟨encodeValue (.vmap a), encodeValue (.vmap u)⟩
      = some (.vmap a, .vmap u) := by
  unfold KeyValuePairLogEvent.to_dict
  simp [decodeWhole_encodeValue]

/-! ### The key-value serializer -/

/-- Modelled from the spec (§6): the stream-header frame tag (value not
fixed there; a fixed byte here). -/
def cKvHeaderTag : Nat := 0x10

/-- Modelled from the spec (§6): the event frame tag (value not fixed
there; a fixed byte here). -/
def cKvEventTag : Nat := 0x11

/-- Modelled from the spec (§6): the end-of-stream marker byte. -/
def cKvEndOfStream : Nat := 0x00

/-- The native `Serializer`'s state: bytes already flushed to the output
stream, and bytes still buffered. -/
structure Serializer where
  output : List Nat
  buffer : List Nat
  deriving DecidableEq, Repr

/-- Modelled from the spec (§4.4, §6): `Serializer.__init__` — the stream
header (header tag plus the length-prefixed msgpack-encoded user-defined
metadata map) enters the buffer at construction. -/
def Serializer.new (user_defined_metadata : MsgpackEntries) : Serializer :=
  ⟨[], cKvHeaderTag :: encodeBytes (encodeValue (.vmap user_defined_metadata))⟩

/-- Buffered write (spec §4.4): appends to the buffer and flushes to the
output only when the buffered size exceeds the threshold. -/
def Serializer.write (s : Serializer) (threshold : Nat) (bytes : List Nat) : Serializer :=
  let buf := s.buffer ++ bytes
  if threshold < buf.length then ⟨s.output ++ buf, []⟩ else ⟨s.output, buf⟩

/-- One event frame (spec §6): frame tag, auto-generated length+msgpack
bytes, user-generated length+msgpack bytes. -/
def kvEventFrame (auto_gen user_gen : MsgpackEntries) : List Nat :=
  cKvEventTag :: (encodeBytes (encodeValue (.vmap auto_gen))
    ++ encodeBytes (encodeValue (.vmap user_gen)))

/-- Modelled from the spec (§4.4): `serialize_log_event_from_msgpack_map`
— validates each input is a well-formed msgpack map (not array/scalar)
before framing it through the buffered writer. -/
def Serializer.serialize_log_event_from_msgpack_map (s : Serializer) (threshold : Nat)
    (auto_gen_msgpack_map user_gen_msgpack_map : MsgpackValue) :
    Except String Serializer :=
  match auto_gen_msgpack_map, user_gen_msgpack_map with
  | .vmap a, .vmap u => .ok (s.write threshold (kvEventFrame a u))
  | _, _ => .error "the given msgpack byte sequence does not encode a map"

/-- `Serializer.flush`: forwards all buffered bytes to the output. -/
def Serializer.flush (s : Serializer) : Serializer := ⟨s.output ++ s.buffer, []⟩

/-- `Serializer.close`: writes the end-of-stream marker and flushes. -/
def Serializer.close (s : Serializer) : Serializer :=
  ⟨s.output ++ (s.buffer ++ [cKvEndOfStream]), []⟩

/-- The serialization loop of `test_serder.py::TestCaseSerDerBase._serialize`:
each (auto-generated, user-generated) pair is serialized as msgpack maps. -/
def serializeKvEvents (threshold : Nat) (s : Serializer) :
    List (MsgpackEntries × MsgpackEntries) → Except String Serializer
  | [] => .ok s
  | (a, u) :: rest =>
    match Serializer.serialize_log_event_from_msgpack_map s threshold
        (.vmap a) (.vmap u) with
    | .error e => .error e
    | .ok s' => serializeKvEvents threshold s' rest

/-- The whole pipeline of `test_serder.py::_serialize`: construct the
serializer (header), serialize every pair, flush, close; the result is the
byte stream written to the output. -/
def serializeKvStream (threshold : Nat) (metadata : MsgpackEntries)
    (events : List (MsgpackEntries × MsgpackEntries)) : Except String (List Nat) :=
  match serializeKvEvents threshold (Serializer.new metadata) events with
  | .error e => .error e
  | .ok s => .ok s.flush.close.output

/-- The concatenated event frames. -/
def kvFramesBytes : List (MsgpackEntries × MsgpackEntries) → List Nat
  | [] => []
  | (a, u) :: rest => kvEventFrame a u ++ kvFramesBytes rest

theorem serializeKvEvents_ok (threshold : Nat) (s : Serializer)
    (events : List (MsgpackEntries × MsgpackEntries)) :
    ∃ s' : Serializer, serializeKvEvents threshold s events = .ok s'
      ∧ s'.output ++ s'.buffer = s.output ++ s.buffer ++ kvFramesBytes events := by
  induction events generalizing s with
  | nil => exact ⟨s, rfl, by simp [kvFramesBytes]⟩
  | cons p rest ih =>
    obtain ⟨a, u⟩ := p
    obtain ⟨s', h1, h2⟩ := ih (s.write threshold (kvEventFrame a u))
    refine ⟨s', ?_, ?_⟩
    · simp only [serializeKvEvents, Serializer.serialize_log_event_from_msgpack_map]
      exact h1
    · have hw : (s.write threshold (kvEventFrame a u)).output
          ++ (s.write threshold (kvEventFrame a u)).buffer
          = s.output ++ s.buffer ++ kvEventFrame a u := by
        simp only [Serializer.write]
        split <;> simp
      rw [h2, hw]
      simp [kvFramesBytes]

/-- The bytes a serializer run writes are the header, the event frames and
the end marker — for every flush threshold. -/
theorem serializeKvStream_eq (threshold : Nat) (metadata : MsgpackEntries)
    (events : List (MsgpackEntries × MsgpackEntries)) :
    serializeKvStream threshold metadata events
      = .ok (cKvHeaderTag :: (encodeBytes (encodeValue (.vmap metadata))
          ++ (kvFramesBytes events ++ [cKvEndOfStream]))) := by
  obtain ⟨s', h1, h2⟩ := serializeKvEvents_ok threshold (Serializer.new metadata) events
  unfold serializeKvStream
  rw [h1]
  unfold Serializer.flush Serializer.close
  simp only [Serializer.new] at h2
  simp only [List.nil_append] at h2
  simp only [Except.ok.injEq]
  show s'.output ++ s'.buffer ++ ([] ++ [cKvEndOfStream]) = _
  rw [List.nil_append, h2]
  simp [List.append_assoc]

/-! ### The deserializer's incremental buffer

Modelled from the spec (§2 "ByteCursor", §4.1): the buffer owns the bytes
pulled from the source so far and refills from the source — at most
`capacity` bytes per read call — until a decode step's request is
satisfied or the source is exhausted.
-/

/-- The buffer state: bytes pulled and not yet consumed, and the bytes the
source has yet to deliver. -/
structure DeserializerBuffer where
  buffered : List Nat
  source : List Nat
  deriving DecidableEq, Repr

/-- All bytes not yet consumed, wherever they sit. -/
def DeserializerBuffer.flat (st : DeserializerBuffer) : List Nat :=
  st.buffered ++ st.source

/-- Modelled from the spec (§4.1 `ensure_available`): pull from the source,
at most `capacity` bytes per read, until at least `n` unread bytes are
buffered or the source is exhausted. -/
def ensureAvailable (capacity : Nat) (hc : 0 < capacity) (n : Nat)
    (st : DeserializerBuffer) : DeserializerBuffer :=
  if st.buffered.length < n ∧ st.source ≠ [] then
    ensureAvailable capacity hc n
      ⟨st.buffered ++ st.source.take capacity, st.source.drop capacity⟩
  else st
  termination_by st.source.length
  decreasing_by
    rename_i h
    simp only [List.length_drop]
    have := List.length_pos.mpr h.2
    omega

theorem ensureAvailable_flat (capacity : Nat) (hc : 0 < capacity) (n : Nat) :
    ∀ (k : Nat) (st : DeserializerBuffer), st.source.length ≤ k →
      (ensureAvailable capacity hc n st).flat = st.flat := by
  intro k
  induction k with
  | zero =>
    intro st hst
    have hsrc : st.source = [] := List.length_eq_zero.mp (Nat.le_zero.mp hst)
    rw [ensureAvailable, if_neg (by simp [hsrc])]
  | succ k ih =>
    intro st hst
    rw [ensureAvailable]
    by_cases hcond : st.buffered.length < n ∧ st.source ≠ []
    · rw [if_pos hcond]
      have hlen : (st.source.drop capacity).length ≤ k := by
        simp only [List.length_drop]
        have := List.length_pos.mpr hcond.2
        omega
      rw [ih ⟨st.buffered ++ st.source.take capacity, st.source.drop capacity⟩ hlen]
      unfold DeserializerBuffer.flat
      simp [List.append_assoc]
    · rw [if_neg hcond]

theorem ensureAvailable_post (capacity : Nat) (hc : 0 < capacity) (n : Nat) :
    ∀ (k : Nat) (st : DeserializerBuffer), st.source.length ≤ k →
      n ≤ (ensureAvailable capacity hc n st).buffered.length
        ∨ (ensureAvailable capacity hc n st).source = [] := by
  intro k
  induction k with
  | zero =>
    intro st hst
    have hsrc : st.source = [] := List.length_eq_zero.mp (Nat.le_zero.mp hst)
    rw [ensureAvailable, if_neg (by simp [hsrc])]
    exact Or.inr hsrc
  | succ k ih =>
    intro st hst
    rw [ensureAvailable]
    by_cases hcond : st.buffered.length < n ∧ st.source ≠ []
    · rw [if_pos hcond]
      have hlen : (st.source.drop capacity).length ≤ k := by
        simp only [List.length_drop]
        have := List.length_pos.mpr hcond.2
        omega
      exact ih ⟨st.buffered ++ st.source.take capacity, st.source.drop capacity⟩ hlen
    · rw [if_neg hcond]
      rcases not_and_or.mp hcond with hbuf | hsrc
      · exact Or.inl (by omega)
      · exact Or.inr (not_ne_iff.mp hsrc)

/-- Read `n` bytes through the buffer, refilling as needed; `none` when the
source is exhausted with fewer than `n` bytes left. -/
def DeserializerBuffer.readN (capacity : Nat) (hc : 0 < capacity) (n : Nat)
    (st : DeserializerBuffer) : Option (List Nat × DeserializerBuffer) :=
  let st' := ensureAvailable capacity hc n st
  if st'.buffered.length < n then none
  else some (st'.buffered.take n, ⟨st'.buffered.drop n, st'.source⟩)

theorem readN_none {capacity : Nat} {hc : 0 < capacity} {n : Nat}
    {st : DeserializerBuffer} :
    DeserializerBuffer.readN capacity hc n st = none ↔ st.flat.length < n := by
  have hflat := ensureAvailable_flat capacity hc n st.source.length st le_rfl
  have hpost := ensureAvailable_post capacity hc n st.source.length st le_rfl
  unfold DeserializerBuffer.readN
  constructor
  · intro h
    by_cases hlt : (ensureAvailable capacity hc n st).buffered.length < n
    · rcases hpost with hge | hsrc
      · omega
      · have : (ensureAvailable capacity hc n st).flat
            = (ensureAvailable capacity hc n st).buffered := by
          unfold DeserializerBuffer.flat
          rw [hsrc, List.append_nil]
        rw [← hflat, this]
        exact hlt
    · rw [if_neg hlt] at h
      simp at h
  · intro h
    rw [if_pos ?hlt]
    case hlt =>
      have hle : (ensureAvailable capacity hc n st).buffered.length
          ≤ (ensureAvailable capacity hc n st).flat.length := by
        unfold DeserializerBuffer.flat
        simp
      rw [hflat] at hle
      omega

theorem readN_some {capacity : Nat} {hc : 0 < capacity} {n : Nat}
    {st : DeserializerBuffer} {bytes : List Nat} {st' : DeserializerBuffer}
    (h : DeserializerBuffer.readN capacity hc n st = some (bytes, st')) :
    bytes = st.flat.take n ∧ st'.flat = st.flat.drop n ∧ n ≤ st.flat.length := by
  have hflat := ensureAvailable_flat capacity hc n st.source.length st le_rfl
  unfold DeserializerBuffer.readN at h
  by_cases hlt : (ensureAvailable capacity hc n st).buffered.length < n
  · rw [if_pos hlt] at h
    simp at h
  · rw [if_neg hlt] at h
    simp only [Option.some.injEq, Prod.mk.injEq] at h
    obtain ⟨hb, hs⟩ := h
    have hn : n ≤ (ensureAvailable capacity hc n st).buffered.length := by omega
    have htake : st.flat.take n = (ensureAvailable capacity hc n st).buffered.take n := by
      rw [← hflat]
      unfold DeserializerBuffer.flat
      rw [List.take_append_of_le_length hn]
    have hdrop : st.flat.drop n
        = (ensureAvailable capacity hc n st).buffered.drop n
          ++ (ensureAvailable capacity hc n st).source := by
      rw [← hflat]
      unfold DeserializerBuffer.flat
      rw [List.drop_append_of_le_length hn]
    have hlen : n ≤ st.flat.length := by
      have : (ensureAvailable capacity hc n st).buffered.length
          ≤ (ensureAvailable capacity hc n st).flat.length := by
        unfold DeserializerBuffer.flat
        simp
      rw [hflat] at this
      omega
    refine ⟨by rw [htake, hb], ?_, hlen⟩
    rw [hdrop, ← hs]
    rfl

/-- Read one byte through the buffer. -/
def DeserializerBuffer.read1 (capacity : Nat) (hc : 0 < capacity)
    (st : DeserializerBuffer) : Option (Nat × DeserializerBuffer) :=
  match DeserializerBuffer.readN capacity hc 1 st with
  | some (b :: _, st') => some (b, st')
  | _ => none

theorem read1_none {capacity : Nat} {hc : 0 < capacity} {st : DeserializerBuffer}
    (h : DeserializerBuffer.read1 capacity hc st = none) : st.flat = [] := by
  unfold DeserializerBuffer.read1 at h
  match hr : DeserializerBuffer.readN capacity hc 1 st with
  | none =>
    have := readN_none.mp hr
    have : st.flat.length = 0 := by omega
    exact List.length_eq_zero.mp this
  | some (bytes, st') =>
    obtain ⟨hb, _, hlen⟩ := readN_some hr
    match hbytes : st.flat with
    | [] => rfl
    | x :: xs =>
      rw [hbytes] at hb
      simp at hb
      rw [hr, hb] at h
      simp at h

theorem read1_some {capacity : Nat} {hc : 0 < capacity} {st : DeserializerBuffer}
    {b : Nat} {st' : DeserializerBuffer}
    (h : DeserializerBuffer.read1 capacity hc st = some (b, st')) :
    st.flat = b :: st'.flat := by
  unfold DeserializerBuffer.read1 at h
  match hr : DeserializerBuffer.readN capacity hc 1 st with
  | none => rw [hr] at h; simp at h
  | some (bytes, st2) =>
    obtain ⟨hb, hs, hlen⟩ := readN_some hr
    rw [hr] at h
    match hbytes : st.flat with
    | [] =>
      rw [hbytes] at hlen
      simp at hlen
    | x :: xs =>
      rw [hbytes] at hb hs
      simp only [List.take_succ_cons, List.take_zero] at hb
      subst hb
      simp only [Option.some.injEq, Prod.mk.injEq] at h
      obtain ⟨hbx, hst⟩ := h
      subst hbx
      subst hst
      rw [hs]
      simp

/-- Read one base-128 varint through the buffer. -/
def readVarNatBuf (capacity : Nat) (hc : 0 < capacity) (st : DeserializerBuffer) :
    Option (Nat × DeserializerBuffer) :=
  match h : DeserializerBuffer.read1 capacity hc st with
  | none => none
  | some (b, st') =>
    if b < 128 then some (b, st')
    else (readVarNatBuf capacity hc st').map (fun p => ((b - 128) + 128 * p.1, p.2))
  termination_by st.buffered.length + st.source.length
  decreasing_by
    have := read1_some h
    unfold DeserializerBuffer.flat at this
    have hlen := congrArg List.length this
    simp only [List.length_append, List.length_cons] at hlen
    omega

theorem readVarNatBuf_flat (capacity : Nat) (hc : 0 < capacity) :
    ∀ (k : Nat) (st : DeserializerBuffer),
      st.buffered.length + st.source.length ≤ k →
      (readVarNatBuf capacity hc st = none → readVarNat st.flat = none)
      ∧ (∀ (n : Nat) (st' : DeserializerBuffer),
          readVarNatBuf capacity hc st = some (n, st')
            → readVarNat st.flat = some (n, st'.flat)) := by
  intro k
  induction k with
  | zero =>
    intro st hst
    have hbuf : st.buffered = [] := by
      have : st.buffered.length = 0 := by omega
      exact List.length_eq_zero.mp this
    have hsrc : st.source = [] := by
      have : st.source.length = 0 := by omega
      exact List.length_eq_zero.mp this
    have hflat : st.flat = [] := by
      unfold DeserializerBuffer.flat
      rw [hbuf, hsrc]
      rfl
    constructor
    · intro _
      rw [hflat]
      rfl
    · intro n st' h
      rw [readVarNatBuf] at h
      split at h
      · simp at h
      · rename_i b st2 heq
        have hcons := read1_some heq
        rw [hflat] at hcons
        simp at hcons
  | succ k ih =>
    intro st hst
    constructor
    · intro h
      rw [readVarNatBuf] at h
      split at h
      · rename_i heq
        rw [read1_none heq]
        rfl
      · rename_i b st2 heq
        have hcons := read1_some heq
        rw [hcons, readVarNat]
        by_cases hb : b < 128
        · rw [if_pos hb] at h
          simp at h
        · rw [if_neg hb] at h
          rw [if_neg hb]
          have hsize : st2.buffered.length + st2.source.length ≤ k := by
            have hlen := congrArg List.length hcons
            unfold DeserializerBuffer.flat at hlen
            simp only [List.length_append, List.length_cons] at hlen
            omega
          match hrec : readVarNatBuf capacity hc st2 with
          | none =>
            rw [(ih st2 hsize).1 hrec]
          | some (m, st3) =>
            rw [hrec] at h
            simp at h
    · intro n st' h
      rw [readVarNatBuf] at h
      split at h
      · simp at h
      · rename_i b st2 heq
        have hcons := read1_some heq
        rw [hcons, readVarNat]
        by_cases hb : b < 128
        · rw [if_pos hb] at h
          simp only [Option.some.injEq, Prod.mk.injEq] at h
          obtain ⟨hn, hst'⟩ := h
          subst hn
          subst hst'
          rw [if_pos hb]
        · rw [if_neg hb] at h
          rw [if_neg hb]
          have hsize : st2.buffered.length + st2.source.length ≤ k := by
            have hlen := congrArg List.length hcons
            unfold DeserializerBuffer.flat at hlen
            simp only [List.length_append, List.length_cons] at hlen
            omega
          match hrec : readVarNatBuf capacity hc st2 with
          | none => rw [hrec] at h; simp at h
          | some (m, st3) =>
            rw [hrec] at h
            simp at h
            obtain ⟨hn, hst'⟩ := h
            subst hn
            subst hst'
            rw [(ih st2 hsize).2 m st3 hrec]

/-- Read one length-prefixed byte string through the buffer. -/
def readBytesBuf (capacity : Nat) (hc : 0 < capacity) (st : DeserializerBuffer) :
    Option (List Nat × DeserializerBuffer) :=
  match readVarNatBuf capacity hc st with
  | none => none
  | some (len, st') => DeserializerBuffer.readN capacity hc len st'

theorem readBytesBuf_flat (capacity : Nat) (hc : 0 < capacity) (st : DeserializerBuffer) :
    (readBytesBuf capacity hc st = none → readBytes st.flat = none)
    ∧ (∀ (s : List Nat) (st' : DeserializerBuffer),
        readBytesBuf capacity hc st = some (s, st')
          → readBytes st.flat = some (s, st'.flat)) := by
  have hvar := readVarNatBuf_flat capacity hc
    (st.buffered.length + st.source.length) st le_rfl
  constructor
  · intro h
    unfold readBytesBuf at h
    match hr : readVarNatBuf capacity hc st with
    | none =>
      unfold readBytes
      rw [hvar.1 hr]
    | some (len, st2) =>
      rw [hr] at h
      unfold readBytes
      rw [hvar.2 len st2 hr]
      have hnone := readN_none.mp h
      show (if st2.flat.length < len then none
            else some (List.take len st2.flat, List.drop len st2.flat))
          = (none : Option (List Nat × List Nat))
      rw [if_pos hnone]
  · intro s st' h
    unfold readBytesBuf at h
    match hr : readVarNatBuf capacity hc st with
    | none => rw [hr] at h; simp at h
    | some (len, st2) =>
      rw [hr] at h
      obtain ⟨htake, hdrop, hlen⟩ := readN_some h
      unfold readBytes
      rw [hvar.2 len st2 hr]
      show (if st2.flat.length < len then none
            else some (List.take len st2.flat, List.drop len st2.flat))
          = some (s, st'.flat)
      rw [if_neg (by omega), htake, hdrop]

/-! ### The key-value deserializer -/

/-- Modelled from the spec (§7): the errors the key-value deserializer
raises — `incomplete` (an `IncompleteStreamError`) when the source ends
mid-frame, `corrupted` on an unknown frame tag. -/
inductive KvDeserErr where
  | incomplete
  | corrupted
  deriving DecidableEq, Repr

/-- Read the auto-generated then the user-generated length-prefixed
payloads off a flat byte stream. -/
def readPayloadPair (bs : List Nat) : Option ((List Nat × List Nat) × List Nat) :=
  match readBytes bs with
  | none => none
  | some (auto_gen, r2) =>
    (readBytes r2).map (fun p => ((auto_gen, p.1), p.2))

/-- Flat-stream reference reading of one `deserialize_log_event` step
(spec §4.4, §6): read the frame tag; the end-of-stream marker yields no
event, an event tag is followed by the auto-generated then the
user-generated length-prefixed msgpack payloads, any other tag is
corruption. -/
def parseKvEvent (bs : List Nat) :
    Except KvDeserErr (Option KeyValuePairLogEvent × List Nat) :=
  match readByte bs with
  | none => .error .incomplete
  | some (tag, rest) =>
    if tag = cKvEndOfStream then .ok (none, rest)
    else if tag = cKvEventTag then
      match readPayloadPair rest with
      | none => .error .incomplete
      | some ((auto_gen, user_gen), r3) => .ok (some ⟨auto_gen, user_gen⟩, r3)
    else .error .corrupted

/-- Flat-stream reference reading of the stream header (spec §6): header
tag, then the length-prefixed msgpack-encoded user-defined metadata. -/
def parseKvHeader (bs : List Nat) : Except KvDeserErr (List Nat × List Nat) :=
  match readByte bs with
  | none => .error .incomplete
  | some (tag, rest) =>
    if tag = cKvHeaderTag then
      match readBytes rest with
      | none => .error .incomplete
      | some (meta, r2) => .ok (meta, r2)
    else .error .corrupted

/-- A successful `readVarNat` consumes at least one byte. -/
theorem readVarNat_consumes :
    ∀ (bs : List Nat) (n : Nat) (rest : List Nat),
      readVarNat bs = some (n, rest) → rest.length < bs.length := by
  intro bs
  induction bs with
  | nil => intro n rest h; simp [readVarNat] at h
  | cons b bs' ih =>
    intro n rest h
    simp only [readVarNat] at h
    by_cases hb : b < 128
    · rw [if_pos hb] at h
      simp only [Option.some.injEq, Prod.mk.injEq] at h
      obtain ⟨-, h2⟩ := h
      subst h2
      simp
    · rw [if_neg hb] at h
      split at h
      · simp at h
      · rename_i m r2 heq
        simp only [Option.some.injEq, Prod.mk.injEq] at h
        obtain ⟨-, h2⟩ := h
        subst h2
        have := ih _ _ heq
        simp only [List.length_cons]
        omega

/-- A successful `readBytes` consumes at least the length prefix. -/
theorem readBytes_consumes {bs s rest : List Nat}
    (h : readBytes bs = some (s, rest)) : rest.length < bs.length := by
  unfold readBytes at h
  split at h
  · simp at h
  · rename_i len r2 heq
    have hv := readVarNat_consumes bs len r2 heq
    by_cases hl : r2.length < len
    · rw [if_pos hl] at h
      simp at h
    · rw [if_neg hl] at h
      simp only [Option.some.injEq, Prod.mk.injEq] at h
      obtain ⟨-, h2⟩ := h
      subst h2
      simp only [List.length_drop]
      omega

/-- A successful `readPayloadPair` consumes at least two length prefixes. -/
theorem readPayloadPair_consumes {bs : List Nat} {p : List Nat × List Nat}
    {rest : List Nat} (h : readPayloadPair bs = some (p, rest)) :
    rest.length < bs.length := by
  unfold readPayloadPair at h
  split at h
  · simp at h
  · rename_i auto_gen r2 heq
    have h1 := readBytes_consumes heq
    cases hr2 : readBytes r2 with
    | none => rw [hr2] at h; simp at h
    | some q =>
      obtain ⟨u, r3⟩ := q
      rw [hr2] at h
      have h2 := readBytes_consumes hr2
      simp only [Option.map_some', Option.some.injEq, Prod.mk.injEq] at h
      obtain ⟨-, h3⟩ := h
      subst h3
      omega

/-- A successful `parseKvEvent` consumes at least the frame-tag byte. -/
theorem parseKvEvent_consumes {bs : List Nat} {r : Option KeyValuePairLogEvent}
    {rest : List Nat} (h : parseKvEvent bs = .ok (r, rest)) :
    rest.length < bs.length := by
  unfold parseKvEvent at h
  cases bs with
  | nil => simp [readByte] at h
  | cons t bs' =>
    simp only [readByte] at h
    by_cases h0 : t = cKvEndOfStream
    · rw [if_pos h0] at h
      simp only [Except.ok.injEq, Prod.mk.injEq] at h
      obtain ⟨-, h2⟩ := h
      subst h2
      simp
    · rw [if_neg h0] at h
      by_cases h1 : t = cKvEventTag
      · rw [if_pos h1] at h
        split at h
        · simp at h
        · rename_i a u r3 heq
          have hp := readPayloadPair_consumes heq
          simp only [Except.ok.injEq, Prod.mk.injEq] at h
          obtain ⟨-, h2⟩ := h
          subst h2
          simp only [List.length_cons]
          omega
      · rw [if_neg h1] at h
        simp at h

theorem readPayloadPair_encode (s1 s2 rest : List Nat) :
    readPayloadPair (encodeBytes s1 ++ (encodeBytes s2 ++ rest))
      = some ((s1, s2), rest) := by
  unfold readPayloadPair
  rw [readBytes_encodeBytes]
  show (readBytes (encodeBytes s2 ++ rest)).map (fun p => ((s1, p.1), p.2))
      = some ((s1, s2), rest)
  rw [readBytes_encodeBytes]
  rfl

/-- The end-of-stream marker parses as "no more events". -/
theorem parseKvEvent_end (rest : List Nat) :
    parseKvEvent (cKvEndOfStream :: rest) = .ok (none, rest) := by
  unfold parseKvEvent
  simp only [readByte]
  rw [if_pos trivial]

/-- One serialized event frame parses back to its two payloads. -/
theorem parseKvEvent_frame (a u : MsgpackEntries) (rest : List Nat) :
    parseKvEvent (kvEventFrame a u ++ rest)
      = .ok (some ⟨encodeValue (.vmap a), encodeValue (.vmap u)⟩, rest) := by
  unfold parseKvEvent kvEventFrame
  simp only [List.cons_append, readByte]
  rw [if_pos trivial, List.append_assoc, readPayloadPair_encode,
    if_neg (by decide : ¬ cKvEventTag = cKvEndOfStream)]

/-- The serialized stream header parses back to the metadata bytes. -/
theorem parseKvHeader_frame (metadata : MsgpackEntries) (rest : List Nat) :
    parseKvHeader (cKvHeaderTag :: (encodeBytes (encodeValue (.vmap metadata)) ++ rest))
      = .ok (encodeValue (.vmap metadata), rest) := by
  unfold parseKvHeader
  simp only [readByte]
  rw [if_pos trivial, readBytes_encodeBytes]

/-- Flat-stream reference event loop (the loop of
`test_serder.py::TestCaseSerDerBase._deserialize`): pull events until the
end-of-stream marker.  `fuel` bounds the number of iterations; each
iteration consumes at least the frame-tag byte (`parseKvEvent_consumes`),
so any fuel beyond the stream length gives the same answer
(`parseKvRunF_fuel_mono`). -/
def parseKvRunF : Nat → List Nat → Except KvDeserErr (List KeyValuePairLogEvent)
  | 0, _ => .error .incomplete
  | fuel + 1, bs =>
    match parseKvEvent bs with
    | .error e => .error e
    | .ok (none, _) => .ok []
    | .ok (some ev, rest) => (parseKvRunF fuel rest).map (fun evs => ev :: evs)

/-- Any fuel beyond the stream length yields the same run. -/
theorem parseKvRunF_fuel_mono :
    ∀ (fuel fuel' : Nat) (bs : List Nat), bs.length < fuel → fuel ≤ fuel' →
      parseKvRunF fuel bs = parseKvRunF fuel' bs := by
  intro fuel
  induction fuel with
  | zero => intro fuel' bs h hle; omega
  | succ n ih =>
    intro fuel' bs h hle
    cases fuel' with
    | zero => omega
    | succ m =>
      simp only [parseKvRunF]
      cases hp : parseKvEvent bs with
      | error e => rfl
      | ok q =>
        obtain ⟨r, rest⟩ := q
        cases r with
        | none => rfl
        | some ev =>
          have hrest := parseKvEvent_consumes hp
          show (parseKvRunF n rest).map (fun evs => ev :: evs)
              = (parseKvRunF m rest).map (fun evs => ev :: evs)
          rw [ih m rest (by omega) (by omega)]

/-- Each event frame holds at least one byte. -/
theorem kvFramesBytes_length_ge (events : List (MsgpackEntries × MsgpackEntries)) :
    events.length ≤ (kvFramesBytes events).length := by
  induction events with
  | nil => simp [kvFramesBytes]
  | cons p rest ih =>
    obtain ⟨a, u⟩ := p
    simp only [kvFramesBytes, kvEventFrame, List.length_cons, List.length_append]
    omega

/-- The flat event loop over the serialized frames returns exactly the
serialized events, given any fuel beyond the event count. -/
theorem parseKvRunF_frames :
    ∀ (events : List (MsgpackEntries × MsgpackEntries)) (fuel : Nat) (rest : List Nat),
      events.length < fuel →
      parseKvRunF fuel (kvFramesBytes events ++ (cKvEndOfStream :: rest))
        = .ok (events.map (fun p =>
            (⟨encodeValue (.vmap p.1), encodeValue (.vmap p.2)⟩
              : KeyValuePairLogEvent))) := by
  intro events
  induction events with
  | nil =>
    intro fuel rest hf
    cases fuel with
    | zero => omega
    | succ n =>
      simp only [kvFramesBytes, List.nil_append, parseKvRunF]
      rw [parseKvEvent_end]
      rfl
  | cons p tailEvents ih =>
    intro fuel r hf
    cases fuel with
    | zero => omega
    | succ n =>
      obtain ⟨a, u⟩ := p
      simp only [kvFramesBytes, List.append_assoc, parseKvRunF]
      rw [parseKvEvent_frame]
      show (parseKvRunF n (kvFramesBytes tailEvents ++ (cKvEndOfStream :: r))).map
            (fun evs =>
              (⟨encodeValue (.vmap a), encodeValue (.vmap u)⟩
                : KeyValuePairLogEvent) :: evs)
          = .ok (((a, u) :: tailEvents).map (fun p =>
              (⟨encodeValue (.vmap p.1), encodeValue (.vmap p.2)⟩
                : KeyValuePairLogEvent)))
      rw [ih n r (by simp only [List.length_cons] at hf; omega)]
      rfl

/-- Read the two length-prefixed payloads through the buffer. -/
def readPayloadPairBuf (capacity : Nat) (hc : 0 < capacity)
    (st : DeserializerBuffer) :
    Option ((List Nat × List Nat) × DeserializerBuffer) :=
  match readBytesBuf capacity hc st with
  | none => none
  | some (auto_gen, st2) =>
    (readBytesBuf capacity hc st2).map (fun p => ((auto_gen, p.1), p.2))

/-- The buffered payload-pair reader agrees with the flat one. -/
theorem readPayloadPairBuf_flat (capacity : Nat) (hc : 0 < capacity)
    (st : DeserializerBuffer) :
    readPayloadPair st.flat
      = (readPayloadPairBuf capacity hc st).map (fun p => (p.1, p.2.flat)) := by
  unfold readPayloadPair readPayloadPairBuf
  cases hb1 : readBytesBuf capacity hc st with
  | none =>
    rw [(readBytesBuf_flat capacity hc st).1 hb1]
    rfl
  | some q =>
    obtain ⟨auto_gen, st2⟩ := q
    rw [(readBytesBuf_flat capacity hc st).2 auto_gen st2 hb1]
    show (readBytes st2.flat).map (fun p => ((auto_gen, p.1), p.2))
        = Option.map (fun p => (p.1, p.2.flat))
            ((readBytesBuf capacity hc st2).map (fun p => ((auto_gen, p.1), p.2)))
    cases hb2 : readBytesBuf capacity hc st2 with
    | none =>
      rw [(readBytesBuf_flat capacity hc st2).1 hb2]
      rfl
    | some q2 =>
      obtain ⟨u, st3⟩ := q2
      rw [(readBytesBuf_flat capacity hc st2).2 u st3 hb2]
      rfl

/-- Modelled from the spec (§4.4): the native
`Deserializer.deserialize_log_event` — read the frame tag through the
incremental buffer; the end-of-stream marker yields no event, an event tag
is followed by the auto-generated then the user-generated length-prefixed
msgpack payloads, any other tag raises a corruption error; a source
exhausted mid-frame raises an `IncompleteStreamError`. -/
def Deserializer.deserialize_log_event (capacity : Nat) (hc : 0 < capacity)
    (st : DeserializerBuffer) :
    Except KvDeserErr (Option KeyValuePairLogEvent × DeserializerBuffer) :=
  match DeserializerBuffer.read1 capacity hc st with
  | none => .error .incomplete
  | some (tag, st1) =>
    if tag = cKvEndOfStream then .ok (none, st1)
    else if tag = cKvEventTag then
      match readPayloadPairBuf capacity hc st1 with
      | none => .error .incomplete
      | some ((auto_gen, user_gen), st2) => .ok (some ⟨auto_gen, user_gen⟩, st2)
    else .error .corrupted

/-- The buffered event step agrees with the flat reference step. -/
theorem deserialize_log_event_flat (capacity : Nat) (hc : 0 < capacity)
    (st : DeserializerBuffer) :
    parseKvEvent st.flat
      = (Deserializer.deserialize_log_event capacity hc st).map
          (fun p => (p.1, p.2.flat)) := by
  unfold Deserializer.deserialize_log_event
  cases hr : DeserializerBuffer.read1 capacity hc st with
  | none =>
    rw [read1_none hr]
    rfl
  | some q =>
    obtain ⟨tag, st1⟩ := q
    rw [read1_some hr]
    unfold parseKvEvent
    simp only [readByte]
    show (if tag = cKvEndOfStream
          then (Except.ok (none, st1.flat)
            : Except KvDeserErr (Option KeyValuePairLogEvent × List Nat))
          else if tag = cKvEventTag then
            match readPayloadPair st1.flat with
            | none => Except.error KvDeserErr.incomplete
            | some ((auto_gen, user_gen), r3) =>
              Except.ok (some ⟨auto_gen, user_gen⟩, r3)
          else Except.error KvDeserErr.corrupted)
        = Except.map (fun p => (p.1, p.2.flat))
            (if tag = cKvEndOfStream
             then (Except.ok (none, st1)
               : Except KvDeserErr (Option KeyValuePairLogEvent × DeserializerBuffer))
             else if tag = cKvEventTag then
               match readPayloadPairBuf capacity hc st1 with
               | none => Except.error KvDeserErr.incomplete
               | some ((auto_gen, user_gen), st2) =>
                 Except.ok (some ⟨auto_gen, user_gen⟩, st2)
             else Except.error KvDeserErr.corrupted)
    by_cases h0 : tag = cKvEndOfStream
    · rw [if_pos h0, if_pos h0]
      rfl
    · rw [if_neg h0, if_neg h0]
      by_cases h1 : tag = cKvEventTag
      · rw [if_pos h1, if_pos h1, readPayloadPairBuf_flat capacity hc st1]
        cases hp : readPayloadPairBuf capacity hc st1 with
        | none => rfl
        | some q2 =>
          obtain ⟨⟨auto_gen, user_gen⟩, st2⟩ := q2
          rfl
      · rw [if_neg h1, if_neg h1]
        rfl

/-- Modelled from the spec (§4.4): `Deserializer.__init__` reads and checks
the stream header through the incremental buffer, yielding the raw
user-defined-metadata bytes and the buffer positioned at the first frame. -/
def Deserializer.new (capacity : Nat) (hc : 0 < capacity)
    (st : DeserializerBuffer) :
    Except KvDeserErr (List Nat × DeserializerBuffer) :=
  match DeserializerBuffer.read1 capacity hc st with
  | none => .error .incomplete
  | some (tag, st1) =>
    if tag = cKvHeaderTag then
      match readBytesBuf capacity hc st1 with
      | none => .error .incomplete
      | some (meta, st2) => .ok (meta, st2)
    else .error .corrupted

/-- The buffered header read agrees with the flat reference read. -/
theorem deserializer_new_flat (capacity : Nat) (hc : 0 < capacity)
    (st : DeserializerBuffer) :
    parseKvHeader st.flat
      = (Deserializer.new capacity hc st).map (fun p => (p.1, p.2.flat)) := by
  unfold Deserializer.new
  cases hr : DeserializerBuffer.read1 capacity hc st with
  | none =>
    rw [read1_none hr]
    rfl
  | some q =>
    obtain ⟨tag, st1⟩ := q
    rw [read1_some hr]
    unfold parseKvHeader
    simp only [readByte]
    show (if tag = cKvHeaderTag then
            match readBytes st1.flat with
            | none => Except.error KvDeserErr.incomplete
            | some (meta, r2) => Except.ok (meta, r2)
          else Except.error KvDeserErr.corrupted)
        = Except.map (fun p => (p.1, p.2.flat))
            (if tag = cKvHeaderTag then
               match readBytesBuf capacity hc st1 with
               | none => Except.error KvDeserErr.incomplete
               | some (meta, st2) => Except.ok (meta, st2)
             else Except.error KvDeserErr.corrupted)
    by_cases h0 : tag = cKvHeaderTag
    · rw [if_pos h0, if_pos h0]
      cases hb : readBytesBuf capacity hc st1 with
      | none =>
        rw [(readBytesBuf_flat capacity hc st1).1 hb]
        rfl
      | some q2 =>
        obtain ⟨meta, st2⟩ := q2
        rw [(readBytesBuf_flat capacity hc st1).2 meta st2 hb]
        rfl
    · rw [if_neg h0, if_neg h0]
      rfl

/-- Modelled from the spec (§4.4): the deserialization loop of
`test_serder.py::TestCaseSerDerBase._deserialize` over the buffered
deserializer — pull events until the end-of-stream marker.  `fuel` bounds
the iterations exactly as in `parseKvRunF`. -/
def deserializeKvRunBuf (capacity : Nat) (hc : 0 < capacity) :
    Nat → DeserializerBuffer → Except KvDeserErr (List KeyValuePairLogEvent)
  | 0, _ => .error .incomplete
  | fuel + 1, st =>
    match Deserializer.deserialize_log_event capacity hc st with
    | .error e => .error e
    | .ok (none, _) => .ok []
    | .ok (some ev, st2) =>
      (deserializeKvRunBuf capacity hc fuel st2).map (fun evs => ev :: evs)

/-- The buffered event loop agrees with the flat reference loop. -/
theorem deserializeKvRunBuf_flat (capacity : Nat) (hc : 0 < capacity) :
    ∀ (fuel : Nat) (st : DeserializerBuffer),
      deserializeKvRunBuf capacity hc fuel st = parseKvRunF fuel st.flat := by
  intro fuel
  induction fuel with
  | zero => intro st; rfl
  | succ n ih =>
    intro st
    simp only [deserializeKvRunBuf, parseKvRunF]
    rw [deserialize_log_event_flat capacity hc st]
    cases hd : Deserializer.deserialize_log_event capacity hc st with
    | error e => rfl
    | ok q =>
      obtain ⟨r, st2⟩ := q
      cases r with
      | none => rfl
      | some ev =>
        show (deserializeKvRunBuf capacity hc n st2).map (fun evs => ev :: evs)
            = (parseKvRunF n st2.flat).map (fun evs => ev :: evs)
        rw [ih st2]

/-- Modelled from the spec (§4.4): the full pipeline of
`test_serder.py::TestCaseSerDerBase._deserialize` — construct the
deserializer over the byte stream (reading the header), then pull log
events until the end-of-stream marker.  The while loop is embedded with
`source.length + 1` iterations of fuel; each iteration consumes at least
the frame-tag byte (`parseKvEvent_consumes`), so the bound is never the
reason a run stops (`parseKvRunF_fuel_mono`). -/
def deserializeKvStream (capacity : Nat) (hc : 0 < capacity) (source : List Nat) :
    Except KvDeserErr (List Nat × List KeyValuePairLogEvent) :=
  match Deserializer.new capacity hc ⟨[], source⟩ with
  | .error e => .error e
  | .ok (meta, st) =>
    (deserializeKvRunBuf capacity hc (source.length + 1) st).map
      (fun evs => (meta, evs))

/-- The buffered whole-stream deserializer agrees with the flat reference
pipeline on every byte stream and every buffer capacity. -/
theorem deserializeKvStream_flat (capacity : Nat) (hc : 0 < capacity)
    (source : List Nat) :
    deserializeKvStream capacity hc source
      = match parseKvHeader source with
        | .error e => .error e
        | .ok (meta, tail) =>
          (parseKvRunF (source.length + 1) tail).map (fun evs => (meta, evs)) := by
  unfold deserializeKvStream
  have hflat : (⟨[], source⟩ : DeserializerBuffer).flat = source := by
    simp [DeserializerBuffer.flat]
  have hsim := deserializer_new_flat capacity hc ⟨[], source⟩
  rw [hflat] at hsim
  rw [hsim]
  cases hN : Deserializer.new capacity hc ⟨[], source⟩ with
  | error e => rfl
  | ok q =>
    obtain ⟨meta, st⟩ := q
    show (deserializeKvRunBuf capacity hc (source.length + 1) st).map
          (fun evs => (meta, evs))
        = (parseKvRunF (source.length + 1) st.flat).map (fun evs => (meta, evs))
    rw [deserializeKvRunBuf_flat capacity hc (source.length + 1) st]

/-- Deserializing the exact byte stream the serializer writes returns the
metadata bytes and one event per serialized pair, for every capacity. -/
theorem deserializeKvStream_serialized (capacity : Nat) (hc : 0 < capacity)
    (metadata : MsgpackEntries) (events : List (MsgpackEntries × MsgpackEntries)) :
    deserializeKvStream capacity hc
        (cKvHeaderTag :: (encodeBytes (encodeValue (.vmap metadata))
          ++ (kvFramesBytes events ++ [cKvEndOfStream])))
      = .ok (encodeValue (.vmap metadata),
          events.map (fun p =>
            (⟨encodeValue (.vmap p.1), encodeValue (.vmap p.2)⟩
              : KeyValuePairLogEvent))) := by
  have hcount : events.length
      < (cKvHeaderTag :: (encodeBytes (encodeValue (.vmap metadata))
          ++ (kvFramesBytes events ++ [cKvEndOfStream]))).length + 1 := by
    have h1 := kvFramesBytes_length_ge events
    simp only [List.length_cons, List.length_append]
    omega
  rw [deserializeKvStream_flat, parseKvHeader_frame]
  show (parseKvRunF
        ((cKvHeaderTag :: (encodeBytes (encodeValue (.vmap metadata))
          ++ (kvFramesBytes events ++ [cKvEndOfStream]))).length + 1)
        (kvFramesBytes events ++ [cKvEndOfStream])).map
      (fun evs => (encodeValue (.vmap metadata), evs))
    = .ok (encodeValue (.vmap metadata),
        events.map (fun p =>
          (⟨encodeValue (.vmap p.1), encodeValue (.vmap p.2)⟩
            : KeyValuePairLogEvent)))
  rw [parseKvRunF_frames events _ [] hcount]
  rfl

/-- C4: for every pair of user-defined-metadata map and list of
(auto-generated, user-generated) msgpack map pairs — values drawn from
{int, float, bool, string, null, nested map, array} — serializing with
`serialize_log_event_from_msgpack_map` under any flush threshold, flushing
and closing, then deserializing the written bytes with
`deserialize_log_event` yields one `KeyValuePairLogEvent` per pair whose
`to_dict` is deep-equal to the original (auto-generated, user-generated)
pair, and the decoded result is identical for every deserializer buffer
capacity. -/
theorem kv_serder_round_trip (capacity threshold : Nat) (hc : 0 < capacity)
    (metadata : MsgpackEntries) (events : List (MsgpackEntries × MsgpackEntries))
    (stream : List Nat)
    (hser : serializeKvStream threshold metadata events = .ok stream) :
    deserializeKvStream capacity hc stream
      = .ok (encodeValue (.vmap metadata),
          events.map (fun p =>
            (⟨encodeValue (.vmap p.1), encodeValue (.vmap p.2)⟩
              : KeyValuePairLogEvent)))
    ∧ (events.map (fun p =>
          KeyValuePairLogEvent.to_dict
            ⟨encodeValue (.vmap p.1), encodeValue (.vmap p.2)⟩))
        = events.map (fun p => some (MsgpackValue.vmap p.1, MsgpackValue.vmap p.2))
    ∧ ∀ (capacity2 : Nat) (hc2 : 0 < capacity2),
        deserializeKvStream capacity2 hc2 stream
          = deserializeKvStream capacity hc stream := by
  rw [serializeKvStream_eq] at hser
  simp only [Except.ok.injEq] at hser
  subst hser
  refine ⟨deserializeKvStream_serialized capacity hc metadata events, ?_, ?_⟩
  · apply List.map_congr_left
    intro p _
    exact to_dict_encode p.1 p.2
  · intro capacity2 hc2
    rw [deserializeKvStream_serialized capacity hc metadata events,
      deserializeKvStream_serialized capacity2 hc2 metadata events]

/-- A sample user-defined metadata map: `{"v": "0.1"}`. -/
def kvSampleMeta : MsgpackEntries := .cons [118] (.vstr [48, 46, 49]) .nil

/-- A sample event pair exercising int, null, nested map, array, bool and
float values. -/
def kvSampleEvents : List (MsgpackEntries × MsgpackEntries) :=
  [(.cons [97] (.vint (-3)) .nil,
    .cons [107] (.vmap (.cons [110] .vnull .nil))
      (.cons [108] (.varr (.cons (.vbool true) (.cons (.vfloat 5) .nil))) .nil))]

/-- The byte stream the serializer writes for the sample input. -/
def kvSampleStream : List Nat :=
  cKvHeaderTag :: (encodeBytes (encodeValue (.vmap kvSampleMeta))
    ++ (kvFramesBytes kvSampleEvents ++ [cKvEndOfStream]))

/-- C4 witness: the round trip evaluated at buffer capacity 1 and flush
threshold 0 on the sample input. -/
theorem kv_serder_round_trip_witness :
    deserializeKvStream 1 Nat.one_pos kvSampleStream
      = .ok (encodeValue (.vmap kvSampleMeta),
          kvSampleEvents.map (fun p =>
            (⟨encodeValue (.vmap p.1), encodeValue (.vmap p.2)⟩
              : KeyValuePairLogEvent)))
    ∧ (kvSampleEvents.map (fun p =>
          KeyValuePairLogEvent.to_dict
            ⟨encodeValue (.vmap p.1), encodeValue (.vmap p.2)⟩))
        = kvSampleEvents.map (fun p =>
            some (MsgpackValue.vmap p.1, MsgpackValue.vmap p.2))
    ∧ ∀ (capacity2 : Nat) (hc2 : 0 < capacity2),
        deserializeKvStream capacity2 hc2 kvSampleStream
          = deserializeKvStream 1 Nat.one_pos kvSampleStream :=
  kv_serder_round_trip 1 0 Nat.one_pos kvSampleMeta kvSampleEvents kvSampleStream
    (serializeKvStream_eq 0 kvSampleMeta kvSampleEvents)

end ir

end ClpFfiPy
